import Mathlib

/-!
Verification development for the browserbox low-level IMAP transport core
(`src/browserbox-imap.js`).  The JavaScript source is shallowly embedded:
JS binary strings become `List Char` (each char one byte) or Lean `String`,
the mutable client object becomes an explicit state record, and callback
invocations become explicit event values.
-/

namespace Browserbox

/-! ## Framing reader (`ImapClient.prototype._iterateIncomingBuffer`)

The reader state is `(_command, _literalRemaining, _incomingBuffer)` and the
scanner repeatedly looks for the leftmost occurrence of the regular
expression `(\{(\d+)(\+)?\})?\r?\n` (`COMMAND_REGEX`) in the buffer. -/
/-- Greedy scan of leading decimal digits, as the regex `\d+` consumes them. -/
def takeDigits : List Char → List Char × List Char
  | [] => ([], [])
  | c :: cs =>
    if c.isDigit then
      let p := takeDigits cs
      (c :: p.1, p.2)
    else ([], c :: cs)

/-- Decimal value of a digit string, as JavaScript `Number` computes it on a
string of decimal digits. -/
def digitsVal (ds : List Char) : Nat :=
  ds.foldl (fun a c => a * 10 + (c.toNat - 48)) 0

/-- Match `\r?\n` anchored at the head of `s`; `some length` on success. -/
def termAt : List Char → Option Nat
  | [] => none
  | c :: cs =>
    if c = '\n' then some 1
    else if c ≠ '\r' then none
    else
      match cs with
      | [] => none
      | c2 :: _ => if c2 = '\n' then some 2 else none

/-- Match `\{(\d+)(\+)?\}` anchored at the head of `s`;
`some (length, value of the digit group)` on success.  The digits are
consumed greedily, matching the JS engine (after greedy `\d+` the next
character is a digit, so a shorter digit match can never satisfy `\+?\}`). -/
def markerAt (s : List Char) : Option (Nat × Nat) :=
  match s with
  | [] => none
  | c :: cs =>
    if c ≠ '{' then none
    else
      let ds := (takeDigits cs).1
      let r := (takeDigits cs).2
      if ds.isEmpty then none
      else if r.take 1 = ['}'] then some (1 + ds.length + 1, digitsVal ds)
      else if r.take 2 = ['+', '}'] then some (1 + ds.length + 2, digitsVal ds)
      else none

/-- Attempt to match `(\{(\d+)(\+)?\})?\r?\n` anchored at the head of `s`.
Returns `some (length, litOpt)` where `length` is the length of the matched
text and `litOpt` is the value of the `\d+` group when the literal-marker
alternative matched.  Mirrors the JS regex engine: at a given start position
the optional group is tried first; if the group matches but no terminator
follows it, the engine retries with the empty group, i.e. `\r?\n` at the
same position (which starts with `{`, so that retry always fails). -/
def matchAt (s : List Char) : Option (Nat × Option Nat) :=
  match markerAt s with
  | some (mlen, v) =>
    match termAt (s.drop mlen) with
    | some tlen => some (mlen + tlen, some v)
    | none => (termAt s).map (fun t => (t, none))
  | none => (termAt s).map (fun t => (t, none))

/-- Leftmost match of `COMMAND_REGEX` in `s`: `some (index, length, litOpt)`
for the smallest start index at which `matchAt` succeeds
(JavaScript `String.prototype.match` semantics). -/
def findMatch : List Char → Option (Nat × Nat × Option Nat)
  | [] => none
  | c :: cs =>
    match matchAt (c :: cs) with
    | some (len, lit) => some (0, len, lit)
    | none =>
      match findMatch cs with
      | some (i, len, lit) => some (i + 1, len, lit)
      | none => none

/-- Framing reader state: accumulated unit (`_command`), pending literal
byte count (`_literalRemaining`), unconsumed input (`_incomingBuffer`). -/
structure RState where
  command : List Char
  literalRemaining : Nat
  buffer : List Char
deriving DecidableEq, Repr

/-- One full run of the `while` loop body of `_iterateIncomingBuffer`,
with `fuel` bounding the number of iterations (each iteration strictly
shortens the buffer, so `buffer.length` fuel is always enough).  Returns the
final reader state and the list of yielded units in order. -/
def drainF : Nat → RState → RState × List (List Char)
  | 0, st => (st, [])
  | fuel + 1, st =>
    match findMatch st.buffer with
    | none => (st, [])
    | some (idx, len, lit) =>
      if st.literalRemaining ≠ 0 then
        if st.buffer.length < st.literalRemaining then
          -- expecting more literal data than available: wait for the next chunk
          (st, [])
        else
          drainF fuel ⟨st.command ++ st.buffer.take st.literalRemaining, 0,
                       st.buffer.drop st.literalRemaining⟩
      else
        match lit with
        | some n =>
          -- literal marker: consume through the terminator, arm the literal count
          drainF fuel ⟨st.command ++ st.buffer.take (idx + len), n,
                       st.buffer.drop (idx + len)⟩
        | none =>
          -- plain terminator: emit the accumulated unit
          let r := drainF fuel ⟨[], 0, st.buffer.drop (idx + len)⟩
          (r.1, (st.command ++ st.buffer.take idx) :: r.2)

/-- Drive the scanner until it stops (no complete terminator, or a pending
literal longer than the buffer). -/
def drain (st : RState) : RState × List (List Char) :=
  drainF st.buffer.length st

/-- `_onData`: append one received chunk to the buffer, then scan
(`_iterateIncomingBuffer` consumed by `_parseIncomingCommands`). -/
def feedSt (st : RState) (chunk : List Char) : RState × List (List Char) :=
  drain { st with buffer := st.buffer ++ chunk }

/-- Feed a sequence of chunks, collecting all emitted units in order. -/
def feedMany (st : RState) : List (List Char) → RState × List (List Char)
  | [] => (st, [])
  | c :: cs =>
    let r := feedSt st c
    let r2 := feedMany r.1 cs
    (r2.1, r.2 ++ r2.2)

/-- The reader state of a fresh connection. -/
def initR : RState := ⟨[], 0, []⟩

/-! ### Well-formed response units and their wire encoding

`_iterateIncomingBuffer` is specified against byte streams that form a
sequence of complete IMAP response units.  A unit is a server line — possibly
containing literal markers `{N}` or `{N+}`, each followed by a line
terminator and exactly `N` opaque literal bytes — ended by a plain
terminator.  The emitted unit keeps the marker lines (with their
terminators) and the literal bytes, and drops only the final terminator. -/
/-- A line terminator on the wire: CRLF or a bare LF (CR is optional). -/
def eolBytes (crlf : Bool) : List Char := if crlf then ['\r', '\n'] else ['\n']

/-- One literal announcement inside a unit: line text, the digits of the
`{N}` marker, the optional `+` flavor, the terminator flavor, and the `N`
literal bytes that follow. -/
structure LitPart where
  text : List Char
  marker : List Char
  plus : Bool
  crlf : Bool
  lit : List Char
deriving DecidableEq, Repr

/-- The wire bytes of the marker and its terminator: `{N}` or `{N+}`, CRLF/LF. -/
def markerBytes (p : LitPart) : List Char :=
  '{' :: p.marker ++ (if p.plus then ['+'] else []) ++ '}' :: eolBytes p.crlf

/-- The wire bytes of one literal announcement, literal payload included. -/
def partBytes (p : LitPart) : List Char := p.text ++ markerBytes p ++ p.lit

/-- One complete response unit: literal announcements, then the final line
text and its terminator flavor. -/
structure RUnit where
  parts : List LitPart
  final : List Char
  crlf : Bool
deriving DecidableEq, Repr

/-- The unit as the reader emits it (final terminator excluded). -/
def unitContent (u : RUnit) : List Char := (u.parts.map partBytes).join ++ u.final

/-- The unit as it appears on the wire (final terminator included). -/
def unitBytes (u : RUnit) : List Char := unitContent u ++ eolBytes u.crlf

/-- A byte stream forming a sequence of complete response units. -/
def streamBytes (us : List RUnit) : List Char := (us.map unitBytes).join

/-- Well-formedness of a literal announcement: the marker digits are a
non-empty digit string whose value is the literal's byte count, and no prefix
of the line text completes a `COMMAND_REGEX` match before the marker does
(in particular the text contains no terminator). -/
def partOk (p : LitPart) : Bool :=
  !p.marker.isEmpty && p.marker.all Char.isDigit &&
  (digitsVal p.marker == p.lit.length) &&
  (List.range p.text.length).all
    (fun j => (matchAt (p.text.drop j ++ markerBytes p)).isNone)

/-- Well-formedness of a unit: every literal announcement is well formed and
no prefix of the final line completes a `COMMAND_REGEX` match before the
final terminator does. -/
def unitOk (u : RUnit) : Bool :=
  u.parts.all partOk &&
  (List.range u.final.length).all
    (fun j => (matchAt (u.final.drop j ++ eolBytes u.crlf)).isNone)

/-! ## JavaScript string helpers

`toUpperCase`, `toLowerCase` and `trim` on the protocol strings the client
manipulates (all ASCII), modelled over the underlying character list. -/
def jsUpper (s : String) : String := ⟨s.data.map Char.toUpper⟩

def jsLower (s : String) : String := ⟨s.data.map Char.toLower⟩

/-- Whitespace characters removed by `String.prototype.trim`. -/
def jsWs (c : Char) : Bool :=
  c = ' ' || c = '\t' || c = '\n' || c = '\r' || c = '\x0b' || c = '\x0c'

def jsTrim (s : String) : String :=
  ⟨((s.data.dropWhile jsWs).reverse.dropWhile jsWs).reverse⟩

/-- `(x || '').toString().toUpperCase().trim()` on a string value. -/
def upperTrim (s : String) : String := jsTrim (jsUpper s)

/-- Decimal digit character for `n % 10`. -/
def digitChar (n : Nat) : Char :=
  match n with
  | 0 => '0' | 1 => '1' | 2 => '2' | 3 => '3' | 4 => '4'
  | 5 => '5' | 6 => '6' | 7 => '7' | 8 => '8' | _ => '9'

/-- Decimal rendering of a natural number (with fuel, `n+1` is enough). -/
def toDecAux : Nat → Nat → List Char
  | 0, _ => []
  | f + 1, n => if n < 10 then [digitChar n] else toDecAux f (n / 10) ++ [digitChar (n % 10)]

def toDecimal (n : Nat) : List Char := toDecAux (n + 1) n

/-- JavaScript number-to-string coercion for a nonnegative integer. -/
def natStr (n : Nat) : String := ⟨toDecimal n⟩

/-- `/^\d+$/.test(s)` -/
def isDigitsStr (s : String) : Bool := !s.data.isEmpty && s.data.all Char.isDigit

/-! ## Parsed responses and `_processResponse`

The IMAP grammar codec (`imapHandler.parser`) is an external collaborator;
its output shape `{tag, command, attributes}` is embedded as `Resp`, with
attribute values carrying an optional bracketed `section`. -/
/-- One entry of a bracketed section as the codec delivers it: absent
(falsy), a single attribute (with optional value), or a nested list. -/
inductive SecEntry where
  | nullish : SecEntry
  | single (value : Option String) : SecEntry
  | listE (vals : List (Option String)) : SecEntry
deriving DecidableEq, Repr

/-- The value `_processResponse` computes for one section entry (`option[i]`
in the source): `undefined`, an uppercased-trimmed string, or a list of
trimmed strings. -/
inductive SecVal where
  | undef : SecVal
  | str (s : String) : SecVal
  | strs (l : List String) : SecVal
deriving DecidableEq, Repr

/-- The value bound under `response[code.toLowerCase()]`: one entry or the
remaining sequence. -/
inductive BoundVal where
  | one (v : SecVal) : BoundVal
  | many (vs : List SecVal) : BoundVal
deriving DecidableEq, Repr

/-- A parsed response attribute (`{type, value, section?}`). -/
structure Attr where
  type : String
  value : Option String
  sectionVal : Option (List SecEntry)
deriving DecidableEq, Repr

/-- A parsed (and, after `_processResponse`, processed) IMAP response. -/
structure Resp where
  tag : String
  command : String
  attributes : List Attr
  humanReadable : Option String := none
  code : Option SecVal := none
  nr : Option Nat := none
  extraKey : Option String := none
  extraVal : Option BoundVal := none
deriving DecidableEq, Repr

/-- `option = section.map(...)` in `_processResponse`: single atoms are
uppercased and trimmed, nested lists only trimmed, falsy entries map to
`undefined`. -/
def mapEntry : SecEntry → SecVal
  | .nullish => .undef
  | .single v => .str (upperTrim (v.getD ""))
  | .listE vs => .strs (vs.map (fun v => jsTrim (v.getD "")))

/-- Truthiness of a JS value as `_processResponse`/the callback test it:
`undefined` and `''` are falsy, a non-empty string and any array truthy. -/
def truthySecVal : Option SecVal → Bool
  | none => false
  | some .undef => false
  | some (.str s) => !(s == "")
  | some (.strs _) => true

/-- `ImapClient.prototype._processResponse`.  Faithful to the source,
including the places where it would throw a `TypeError` (modelled as
`Except.error`): `key.toLowerCase()` when the first section entry is not a
string, and `attributes[0].type`/last-attribute access on a missing
attribute. -/
def processResponse (r : Resp) : Except String Resp :=
  let command := upperTrim r.command
  -- no attributes
  if r.attributes.isEmpty then .ok r
  else
    -- untagged responses w/ sequence numbers
    let r :=
      if r.tag = "*" ∧ isDigitsStr r.command ∧
          (r.attributes.head?.map Attr.type).getD "" = "ATOM" then
        { r with nr := some (digitsVal r.command.data),
                 command := upperTrim (((r.attributes.head?.map Attr.value).getD none).getD ""),
                 attributes := r.attributes.tail }
      else r
    -- no optional response code
    if ¬ (command ∈ (["OK", "NO", "BAD", "BYE", "PREAUTH"] : List String)) then .ok r
    else
      match r.attributes.getLast? with
      | none => .error "TypeError"
      | some la =>
        -- if the last element is TEXT then this is for humans
        let r := if la.type = "TEXT" then { r with humanReadable := la.value } else r
        match r.attributes.head? with
        | none => .error "TypeError"
        | some f0 =>
          if f0.type = "ATOM" then
            match f0.sectionVal with
            | none => .ok r
            | some sec =>
              match sec.map mapEntry with
              | [] => .ok { r with code := some .undef }
              | key :: restOpt =>
                let r := { r with code := some key }
                match restOpt with
                | [] => .ok r
                | [v] =>
                  match key with
                  | .str s => .ok { r with extraKey := some (jsLower s),
                                           extraVal := some (.one v) }
                  | _ => .error "TypeError"
                | vs =>
                  match key with
                  | .str s => .ok { r with extraKey := some (jsLower s),
                                           extraVal := some (.many vs) }
                  | _ => .error "TypeError"
          else .ok r

/-- The outcome a command's one-shot `callback` produces on its promise. -/
inductive CbResult where
  | rejected (message : String) (code : Option SecVal) : CbResult
  | resolved (r : Resp) : CbResult
deriving DecidableEq, Repr

/-- The per-command `callback` installed by `enqueueCommand` (the
`isError(response)` branch cannot fire on a parsed response, which is a
plain object, so it is not modelled). -/
def commandCallback (r : Resp) : CbResult :=
  if upperTrim r.command ∈ (["NO", "BAD"] : List String) then
    .rejected
      (match r.humanReadable with
       | some s => if s = "" then "Error" else s
       | none => "Error")
      (if truthySecVal r.code then r.code else none)
  else .resolved r

/-! ## Command queue, sender and router

State of the single connection object: the client queue, the `canSend` and
`restartQueue` flags, the tag counter, the current command and the global
untagged handler table (handler bodies are external; invoking one is an
observable event). -/
/-- EOL appended to outgoing chunks. -/
def EOL : String := "\r\n"

/-- A queued command record (`data` in `enqueueCommand`).  `compiled` stands
for the chunk list the external codec (`imapHandler.compiler`) produces for
the request; `_sendRequest` copies it into `data` at dispatch.  `requestTag`
is the `tag` property of the underlying request object. -/
structure Cmd where
  tag : String
  requestTag : String
  compiled : List String
  data : List String := []
  payload : Option (List (String × List Resp)) := none
  precheck : Bool := false
  errorResponseExpectsEmptyLine : Option Bool := none
deriving DecidableEq, Repr

/-- Observable effects of the client: bytes sent, a command callback
invocation (with the payload attached to the response, if any), a global
untagged handler invocation, or arming the idle timer. -/
inductive Event where
  | sent (s : String) : Event
  | callback (tag : String) (r : Resp) (payload : Option (List (String × List Resp))) : Event
  | globalHandler (name : String) (r : Resp) : Event
  | enterIdle : Event
deriving DecidableEq, Repr

/-- Mutable state of the `ImapClient` relevant to queueing and routing. -/
structure CState where
  clientQueue : List Cmd := []
  canSend : Bool := false
  restartQueue : Bool := false
  tagCounter : Nat := 0
  currentCommand : Option Cmd := none
  globalAcceptUntagged : List String := []
deriving DecidableEq, Repr

/-- The state of a fresh connection object. -/
def initC : CState := {}

/-- JS `Array.prototype.shift` on the compiled chunk list; on an empty array
it yields `undefined`, which string-concatenation renders as "undefined". -/
def shiftChunk : List String → String × List String
  | [] => ("undefined", [])
  | c :: r => (c, r)

/-- `ImapClient.prototype._sendRequest`.  The asynchronous precheck path
only detaches the precheck, marks the queue for restart and returns (the
precheck body runs later in its own task); the synchronous path pops the
head into `currentCommand`, clears `canSend` and sends the first compiled
chunk, appending EOL iff it is the only chunk. -/
def sendRequest (st : CState) : CState × List Event :=
  match st.clientQueue with
  | [] => (st, [Event.enterIdle])
  | hd :: rest =>
    let st := { st with restartQueue := false }
    if hd.precheck then
      ({ st with clientQueue := { hd with precheck := false } :: rest,
                 restartQueue := true }, [])
    else
      let p := shiftChunk hd.compiled
      let current : Cmd := { hd with data := p.2 }
      ({ st with canSend := false, currentCommand := some current, clientQueue := rest },
       [Event.sent (p.1 ++ (if p.2.isEmpty then EOL else ""))])

/-- Key membership in the payload map (`command in this._currentCommand.payload`). -/
def payloadHasKey (p : List (String × List Resp)) (k : String) : Bool :=
  p.any (fun kv => kv.1 = k)

/-- `this._currentCommand.payload[command].push(response)`. -/
def payloadPush (p : List (String × List Resp)) (k : String) (r : Resp) :
    List (String × List Resp) :=
  p.map (fun kv => if kv.1 = k then (kv.1, kv.2 ++ [r]) else kv)

/-- `ImapClient.prototype._handleResponse`: route a processed response to
the current command's payload collector, a global untagged handler, or the
current command's tagged completion.  Note that the source never resets
`_currentCommand` here; it is only overwritten by the next dispatch (or by
`close`). -/
def handleResponse (st : CState) (r : Resp) : CState × List Event :=
  let command := upperTrim r.command
  match st.currentCommand with
  | none =>
    -- unsolicited untagged response
    if r.tag = "*" ∧ command ∈ st.globalAcceptUntagged then
      let st1 := { st with canSend := true }
      let s2 := sendRequest st1
      (s2.1, Event.globalHandler command r :: s2.2)
    else (st, [])
  | some c =>
    if c.payload.isSome ∧ r.tag = "*" ∧ payloadHasKey (c.payload.getD []) command then
      -- expected untagged response
      let c2 : Cmd := { c with payload := some (payloadPush (c.payload.getD []) command r) }
      ({ st with currentCommand := some c2 }, [])
    else if r.tag = "*" ∧ command ∈ st.globalAcceptUntagged then
      -- unexpected untagged response
      let st1 := { st with canSend := true }
      let s2 := sendRequest st1
      (s2.1, Event.globalHandler command r :: s2.2)
    else if r.tag = c.tag then
      -- tagged response
      let attached := if c.payload.isSome ∧ (c.payload.getD []).length ≠ 0
                      then c.payload else none
      let st1 := { st with canSend := true }
      let s2 := sendRequest st1
      (s2.1, Event.callback c.tag r attached :: s2.2)
    else (st, [])

/-- The `+`-tagged branch of `ImapClient.prototype._parseIncomingCommands`.
When no command is current, `this._currentCommand.data` evaluates to
`undefined` (property access on the boolean `false`), and `.length` on it
throws a `TypeError` — modelled as `Except.error`.  The `typeof x` test is
a string (`"undefined"`, `"boolean"`, …), which is always truthy. -/
def jsTypeof : Option Bool → String
  | none => "undefined"
  | some _ => "boolean"

def handleContinuation (st : CState) : Except String (CState × List Event) :=
  match st.currentCommand with
  | none => .error "TypeError: undefined has no length"
  | some c =>
    match c.data with
    | chunk :: rest =>
      -- feed the next chunk of data; EOL iff there is nothing more to send
      .ok ({ st with currentCommand := some { c with data := rest } },
           [Event.sent (chunk ++ (if rest.isEmpty then EOL else ""))])
    | [] =>
      if jsTypeof c.errorResponseExpectsEmptyLine ≠ "" then
        .ok (st, [Event.sent EOL])
      else
        .ok (st, [])

/-- Options accepted by `enqueueCommand` (the `ctx` reference is identified
by the anchor command's tag, which is unique for the connection). -/
structure EnqOpts where
  ctx : Option String := none
  precheck : Bool := false
  errorResponseExpectsEmptyLine : Option Bool := none
deriving DecidableEq, Repr

/-- `Array.prototype.splice(index, 0, data)`. -/
def insertAt (i : Nat) (a : α) (l : List α) : List α := l.take i ++ a :: l.drop i

/-- `ImapClient.prototype.enqueueCommand`: normalize `acceptUntagged`,
assign the next `W<n>` tag, pre-create payload buckets, insert before the
`ctx` anchor (suffixing the new record's tag and its request's tag with
`.p`) when the anchor is still queued, else append; then try to send if
`canSend`.  Returns the new state, emitted events and the assigned tag. -/
def enqueueCommand (st : CState) (compiled : List String)
    (acceptUntagged : List String) (opts : EnqOpts) : CState × List Event × String :=
  let accept := (acceptUntagged.map upperTrim).eraseDups
  let tagCounter := st.tagCounter + 1
  let tag := "W" ++ natStr tagCounter
  let payload : Option (List (String × List Resp)) :=
    if accept.isEmpty then none else some (accept.map (fun c => (c, ([] : List Resp))))
  let cmd0 : Cmd := { tag := tag, requestTag := tag, compiled := compiled,
                      payload := payload, precheck := opts.precheck,
                      errorResponseExpectsEmptyLine := opts.errorResponseExpectsEmptyLine }
  let idx := match opts.ctx with
             | some t => st.clientQueue.findIdx? (fun c => c.tag = t)
             | none => none
  let st1 : CState × String :=
    match idx with
    | some i =>
      let cmd1 := { cmd0 with tag := cmd0.tag ++ ".p", requestTag := cmd0.requestTag ++ ".p" }
      ({ st with tagCounter := tagCounter,
                 clientQueue := insertAt i cmd1 st.clientQueue }, cmd1.tag)
    | none =>
      ({ st with tagCounter := tagCounter,
                 clientQueue := st.clientQueue ++ [cmd0] }, cmd0.tag)
  if st1.1.canSend then
    let s2 := sendRequest st1.1
    (s2.1, s2.2, st1.2)
  else (st1.1, [], st1.2)

/-- External stimuli of a connection's lifetime relevant to tag assignment:
an `enqueueCommand` call or an inbound routed response. -/
inductive COp where
  | enq (compiled : List String) (accept : List String) (opts : EnqOpts) : COp
  | resp (r : Resp) : COp

/-- Run a sequence of operations, collecting the tags `enqueueCommand`
assigns. -/
def runOps (st : CState) : List COp → CState × List String
  | [] => (st, [])
  | (COp.enq c a o) :: rest =>
    let e := enqueueCommand st c a o
    let r := runOps e.1 rest
    (r.1, e.2.2 :: r.2)
  | (COp.resp r) :: rest =>
    let h := handleResponse st r
    runOps h.1 rest

/-- Base number of an assigned tag: the digits after the leading `W`. -/
def parseBase (s : String) : Nat :=
  match s.data with
  | 'W' :: rest => digitsVal (takeDigits rest).1
  | _ => 0

/-! ### Router branch characterizations -/
/-- The state right after `_sendRequest` dispatches the head command. -/
def dispatchState (st : CState) (hd : Cmd) (rest : List Cmd) : CState :=
  { st with
      restartQueue := false, canSend := false,
      currentCommand := some ({ hd with data := (shiftChunk hd.compiled).2 }),
      clientQueue := rest }

/-- The state right after a continuation send pops one chunk from the
current command `c`, leaving it `ds`. -/
def contState (st : CState) (c : Cmd) (ds : List String) : CState :=
  { st with currentCommand := some ({ c with data := ds }) }

/-! ### Concrete states used by the claim theorems -/
/-- A simple queued command with one compiled chunk. -/
def cmdW1x : Cmd := { tag := "W1", requestTag := "W1", compiled := ["X"] }

/-- A command in flight that accepts CAPABILITY untagged responses (its
bucket still empty). -/
def cmdW5x : Cmd :=
  { tag := "W5", requestTag := "W5", compiled := ["X"], payload := some [("CAPABILITY", [])] }

/-- `cmdW5x` is current, queue empty, nothing sendable. -/
def stTaggedx : CState := { currentCommand := some cmdW5x }

/-- The tagged completion for `cmdW5x`. -/
def respW5x : Resp := { tag := "W5", command := "OK", attributes := [] }

/-- `cmdW1x` is in flight with an EXISTS global handler registered and an
empty queue. -/
def stGlobalx : CState :=
  { currentCommand := some cmdW1x, globalAcceptUntagged := ["EXISTS"] }

/-- An unsolicited `* EXISTS`-style response (already processed). -/
def respExists : Resp := { tag := "*", command := "EXISTS", attributes := [] }

/-- A queue holding one dispatchable command. -/
def stDispatch : CState := { clientQueue := [cmdW1x], canSend := true }

/-- A command whose codec output is the two chunks `A1` and `B2`. -/
def cmdAB : Cmd := { tag := "W1", requestTag := "W1", compiled := ["A1", "B2"] }

/-- A queue holding only `cmdAB`. -/
def stAB : CState := { clientQueue := [cmdAB] }

/-- An anchor command still in the queue, for priority insertion. -/
def anchorW1 : Cmd := { tag := "W1", requestTag := "W1", compiled := ["A"] }

/-- State before a priority insertion targeting `anchorW1`. -/
def stAnchor : CState := { clientQueue := [anchorW1], tagCounter := 1 }

/-- A current command whose compiled data is exhausted and whose
`errorResponseExpectsEmptyLine` option was never set. -/
def cmdNoData : Cmd := { tag := "W1", requestTag := "W1", compiled := [] }

/-- `cmdNoData` in flight when a `+` continuation prompt arrives. -/
def stPlusEmpty : CState := { currentCommand := some cmdNoData }

/-- The parsed form of `W2 NO [ALERT] bad mailbox` as the codec delivers
it: a bracketed ATOM section and a trailing TEXT attribute. -/
def exRespC6 : Resp :=
  { tag := "W2", command := "NO",
    attributes :=
      [ { type := "ATOM", value := some "", sectionVal := some [SecEntry.single (some "ALERT")] },
        { type := "TEXT", value := some "bad mailbox", sectionVal := none } ] }

/-- `exRespC6` after `_processResponse`. -/
def procRespC6 : Resp :=
  { exRespC6 with humanReadable := some "bad mailbox", code := some (SecVal.str "ALERT") }

/-- A successful tagged completion (not NO/BAD). -/
def respOkC6 : Resp := { tag := "W3", command := "OK", attributes := [] }

/-- First unit of the C3 witness stream: `* 1 FETCH (BODY[] {5}\r\nhello)\r\n`. -/
def u1x : RUnit :=
  { parts := [{ text := "* 1 FETCH (BODY[] ".data, marker := ['5'], plus := false,
                crlf := true, lit := "hello".data }],
    final := ")".data, crlf := true }

/-- Second unit of the C3 witness stream: `W1 OK done\r\n`. -/
def u2x : RUnit := { parts := [], final := "W1 OK done".data, crlf := true }

/-- A chunking of the two-unit stream with boundaries inside the `{5}`
marker, inside the marker's CRLF, inside the literal, and inside the final
line. -/
def csx : List (List Char) :=
  ["* 1 FETCH (BODY[] \x7b".data, "5\x7d\r".data, "\nhel".data,
   "lo)\r\nW1 OK d".data, "one\r\n".data]

/-! ### Scanner lemmas -/
theorem takeDigits_eq_append : ∀ s : List Char, (takeDigits s).1 ++ (takeDigits s).2 = s := by
  intro s
  induction s with
  | nil => rfl
  | cons c cs ih =>
    simp only [takeDigits]
    by_cases h : c.isDigit
    · simp [h, ih]
    · simp [h]

theorem takeDigits_digits : ∀ s : List Char, ∀ c ∈ (takeDigits s).1, c.isDigit = true := by
  intro s
  induction s with
  | nil => intro c hc; simp [takeDigits] at hc
  | cons d cs ih =>
    intro c hc
    simp only [takeDigits] at hc
    by_cases h : d.isDigit
    · simp [h] at hc
      rcases hc with hc | hc
      · exact hc ▸ h
      · exact ih c hc
    · simp [h] at hc

theorem takeDigits_of_append : ∀ (a b : List Char), (∀ c ∈ a, c.isDigit = true) →
    (b = [] ∨ ∃ c cs, b = c :: cs ∧ c.isDigit = false) →
    takeDigits (a ++ b) = (a, b) := by
  intro a
  induction a with
  | nil =>
    intro b _ hb
    rcases hb with rfl | ⟨c, cs, rfl, hc⟩
    · rfl
    · simp [takeDigits, hc]
  | cons d a ih =>
    intro b ha hb
    have hd : d.isDigit = true := ha d (by simp)
    have hih := ih b (fun c hc => ha c (by simp [hc])) hb
    simp [takeDigits, hd, hih]

theorem takeDigits_append_of_ne_nil : ∀ (s e : List Char), (takeDigits s).2 ≠ [] →
    takeDigits (s ++ e) = ((takeDigits s).1, (takeDigits s).2 ++ e) := by
  intro s
  induction s with
  | nil => intro e h; simp [takeDigits] at h
  | cons c cs ih =>
    intro e h
    by_cases hc : c.isDigit
    · have h' : (takeDigits cs).2 ≠ [] := by
        intro hnil
        apply h
        simp [takeDigits, hc, hnil]
      simp [takeDigits, hc, ih e h']
    · simp [takeDigits, hc]

theorem termAt_bound {s : List Char} {t : Nat} (h : termAt s = some t) :
    1 ≤ t ∧ t ≤ s.length := by
  rcases s with _ | ⟨c, cs⟩
  · simp [termAt] at h
  · simp only [termAt] at h
    by_cases h1 : c = '\n'
    · simp [h1] at h; simp only [List.length_cons]; omega
    · simp only [h1, if_false] at h
      by_cases h2 : c = '\r'
      · simp only [h2, ne_eq, not_true_eq_false, if_false] at h
        rcases cs with _ | ⟨c2, cs2⟩
        · simp at h
        · by_cases h3 : c2 = '\n'
          · simp [h3] at h; simp; omega
          · simp [h3] at h
      · simp [h2] at h

theorem termAt_append {s e : List Char} {t : Nat} (h : termAt s = some t) :
    termAt (s ++ e) = some t := by
  rcases s with _ | ⟨c, cs⟩
  · simp [termAt] at h
  · simp only [termAt, List.cons_append] at h ⊢
    by_cases h1 : c = '\n'
    · simpa [h1] using h
    · simp only [h1, if_false] at h ⊢
      by_cases h2 : c = '\r'
      · simp only [h2, ne_eq, not_true_eq_false, if_false] at h ⊢
        rcases cs with _ | ⟨c2, cs2⟩
        · simp at h
        · by_cases h3 : c2 = '\n'
          · simpa [h3] using h
          · simp [h3] at h
      · simp [h2] at h

theorem termAt_none_append {s e : List Char} (hmem : '\n' ∈ s) (h : termAt s = none) :
    termAt (s ++ e) = none := by
  rcases s with _ | ⟨c, cs⟩
  · simp at hmem
  · simp only [termAt, List.cons_append] at h ⊢
    by_cases h1 : c = '\n'
    · simp [h1] at h
    · simp only [h1, if_false] at h ⊢
      by_cases h2 : c = '\r'
      · simp only [h2, ne_eq, not_true_eq_false, if_false] at h ⊢
        rcases cs with _ | ⟨c2, cs2⟩
        · simp at hmem
          exact absurd hmem.symm h1
        · by_cases h3 : c2 = '\n'
          · simp [h3] at h
          · simp [h3] at h ⊢
      · simp [h2] at h ⊢

theorem termAt_mem {s : List Char} {t : Nat} (h : termAt s = some t) : '\n' ∈ s := by
  rcases s with _ | ⟨c, cs⟩
  · simp [termAt] at h
  · simp only [termAt] at h
    by_cases h1 : c = '\n'
    · simp [h1]
    · simp only [h1, if_false] at h
      by_cases h2 : c = '\r'
      · simp only [h2, ne_eq, not_true_eq_false, if_false] at h
        rcases cs with _ | ⟨c2, cs2⟩
        · simp at h
        · by_cases h3 : c2 = '\n'
          · simp [h3]
          · simp [h3] at h
      · simp [h2] at h

/-- A successful marker match exposes its syntactic shape. -/
theorem markerAt_shape {s : List Char} {m v : Nat} (h : markerAt s = some (m, v)) :
    ∃ ds rest, ds ≠ [] ∧ (∀ c ∈ ds, c.isDigit = true) ∧ v = digitsVal ds ∧
      ((s = '{' :: ds ++ '}' :: rest ∧ m = 1 + ds.length + 1) ∨
       (s = '{' :: ds ++ '+' :: '}' :: rest ∧ m = 1 + ds.length + 2)) := by
  rcases s with _ | ⟨c, cs⟩
  · simp [markerAt] at h
  · simp only [markerAt] at h
    by_cases hc : c = '{'
    case neg => simp [hc] at h
    subst hc
    rw [if_neg (by simp)] at h
    have hsplit := takeDigits_eq_append cs
    have hdig := takeDigits_digits cs
    rcases hds : (takeDigits cs).1 with _ | ⟨d, ds'⟩
    · rw [hds] at h; simp at h
    · rw [hds] at h hsplit hdig
      rw [if_neg (by simp)] at h
      rcases hr : (takeDigits cs).2 with _ | ⟨c2, r2⟩
      · rw [hr] at h; simp at h
      · rw [hr] at h hsplit
        by_cases h2 : c2 = '}'
        · subst h2
          rw [if_pos (by simp)] at h
          simp only [Option.some_inj, Prod.mk.injEq] at h
          obtain ⟨hm, hv⟩ := h
          exact ⟨d :: ds', r2, by simp, hdig, hv.symm,
            Or.inl ⟨by rw [← hsplit]; simp, hm.symm⟩⟩
        · rw [if_neg (by simp [h2])] at h
          by_cases h3 : c2 = '+'
          case neg => simp [h2, h3] at h
          subst h3
          rcases r2 with _ | ⟨c3, r3⟩
          · simp at h
          · by_cases h4 : c3 = '}'
            case neg => simp [h4] at h
            subst h4
            rw [if_pos (by simp)] at h
            simp only [Option.some_inj, Prod.mk.injEq] at h
            obtain ⟨hm, hv⟩ := h
            exact ⟨d :: ds', r3, by simp, hdig, hv.symm,
              Or.inr ⟨by rw [← hsplit]; simp, hm.symm⟩⟩

/-- Compute a marker match from its shape (no `+` flavor). -/
theorem markerAt_mk {ds rest : List Char} (hne : ds ≠ [])
    (hdig : ∀ c ∈ ds, c.isDigit = true) :
    markerAt ('{' :: ds ++ '}' :: rest) = some (1 + ds.length + 1, digitsVal ds) := by
  have htd : takeDigits (ds ++ '}' :: rest) = (ds, '}' :: rest) :=
    takeDigits_of_append ds ('}' :: rest) hdig (Or.inr ⟨'}', rest, rfl, by decide⟩)
  rcases ds with _ | ⟨d, ds'⟩
  · exact absurd rfl hne
  · have htd' : takeDigits (d :: (ds' ++ '}' :: rest)) = (d :: ds', '}' :: rest) := by
      simpa using htd
    simp [markerAt, htd']

/-- Compute a marker match from its shape (`+` flavor). -/
theorem markerAt_mk_plus {ds rest : List Char} (hne : ds ≠ [])
    (hdig : ∀ c ∈ ds, c.isDigit = true) :
    markerAt ('{' :: ds ++ '+' :: '}' :: rest) = some (1 + ds.length + 2, digitsVal ds) := by
  have htd : takeDigits (ds ++ '+' :: '}' :: rest) = (ds, '+' :: '}' :: rest) :=
    takeDigits_of_append ds ('+' :: '}' :: rest) hdig (Or.inr ⟨'+', '}' :: rest, rfl, by decide⟩)
  rcases ds with _ | ⟨d, ds'⟩
  · exact absurd rfl hne
  · have htd' : takeDigits (d :: (ds' ++ '+' :: '}' :: rest)) = (d :: ds', '+' :: '}' :: rest) := by
      simpa using htd
    simp [markerAt, htd']

theorem markerAt_bound {s : List Char} {m v : Nat} (h : markerAt s = some (m, v)) :
    1 ≤ m ∧ m ≤ s.length := by
  rcases markerAt_shape h with ⟨ds, rest, _, _, _, ⟨rfl, rfl⟩ | ⟨rfl, rfl⟩⟩ <;>
    refine ⟨by omega, ?_⟩ <;> simp [List.length_append] <;> omega

theorem markerAt_append {s e : List Char} {m v : Nat} (h : markerAt s = some (m, v)) :
    markerAt (s ++ e) = some (m, v) := by
  rcases markerAt_shape h with ⟨ds, rest, hne, hdig, rfl, ⟨rfl, rfl⟩ | ⟨rfl, rfl⟩⟩
  · have := @markerAt_mk _ (rest ++ e) hne hdig
    simpa using this
  · have := @markerAt_mk_plus _ (rest ++ e) hne hdig
    simpa using this

theorem markerAt_head {s : List Char} {m v : Nat} (h : markerAt s = some (m, v)) :
    ∃ cs, s = '{' :: cs := by
  rcases markerAt_shape h with ⟨ds, rest, _, _, _, ⟨rfl, _⟩ | ⟨rfl, _⟩⟩ <;> exact ⟨_, rfl⟩

/-- The text matched by a marker contains no newline. -/
theorem markerAt_take {s : List Char} {m v : Nat} (h : markerAt s = some (m, v)) :
    '\n' ∉ s.take m := by
  rcases markerAt_shape h with ⟨ds, rest, _, hdig, _, ⟨rfl, rfl⟩ | ⟨rfl, rfl⟩⟩
  · have ht : ('{' :: ds ++ '}' :: rest).take (1 + ds.length + 1) = '{' :: ds ++ ['}'] := by
      rw [show 1 + ds.length + 1 = ds.length + 1 + 1 by omega]
      rw [List.cons_append, List.take_succ_cons, List.take_append_eq_append_take]
      rw [List.take_of_length_le (by omega)]
      rw [show ds.length + 1 - ds.length = 1 by omega]
      rfl
    rw [ht]
    intro hmem
    rcases List.mem_cons.mp hmem with h1 | h1
    · exact absurd h1 (by decide)
    · rcases List.mem_append.mp h1 with h2 | h2
      · have := hdig _ h2; simp at this
      · exact absurd h2 (by decide)
  · have ht : ('{' :: ds ++ '+' :: '}' :: rest).take (1 + ds.length + 2)
        = '{' :: ds ++ ['+', '}'] := by
      rw [show 1 + ds.length + 2 = ds.length + 2 + 1 by omega]
      rw [List.cons_append, List.take_succ_cons, List.take_append_eq_append_take]
      rw [List.take_of_length_le (by omega)]
      rw [show ds.length + 2 - ds.length = 2 by omega]
      rfl
    rw [ht]
    intro hmem
    rcases List.mem_cons.mp hmem with h1 | h1
    · exact absurd h1 (by decide)
    · rcases List.mem_append.mp h1 with h2 | h2
      · have := hdig _ h2; simp at this
      · exact absurd h2 (by decide)

theorem markerAt_none_append {s e : List Char} (hmem : '\n' ∈ s) (h : markerAt s = none) :
    markerAt (s ++ e) = none := by
  rcases s with _ | ⟨c, cs⟩
  · simp at hmem
  · have hmem' : '\n' ∈ cs ∨ c = '\n' := by
      rcases List.mem_cons.mp hmem with h1 | h1
      · exact Or.inr h1.symm
      · exact Or.inl h1
    simp only [markerAt, List.cons_append] at h ⊢
    by_cases hc : c = '{'
    case neg => simp [hc] at h ⊢
    subst hc
    rw [if_neg (by simp)] at h ⊢
    have hmemcs : '\n' ∈ cs := by
      rcases hmem' with h1 | h1
      · exact h1
      · exact absurd h1 (by decide)
    rcases hds : (takeDigits cs).1 with _ | ⟨d, ds'⟩
    · -- no leading digits: the head of `cs` is not a digit, which survives append
      rcases cs with _ | ⟨c1, cs1⟩
      · simp at hmemcs
      · have h1 : c1.isDigit = false := by
          by_contra hcon
          simp only [Bool.not_eq_false] at hcon
          simp [takeDigits, hcon] at hds
        simp [takeDigits, h1] at hds ⊢
    · -- digits followed by a non-matching continuation
      have hr2 : (takeDigits cs).2 ≠ [] := by
        intro hnil
        have hs := takeDigits_eq_append cs
        rw [hnil, List.append_nil] at hs
        have : '\n' ∈ (takeDigits cs).1 := by rw [hs]; exact hmemcs
        have := takeDigits_digits cs _ this
        simp at this
      rcases hr : (takeDigits cs).2 with _ | ⟨c2, r2⟩
      · exact absurd hr hr2
      · have hta1 : (takeDigits (cs ++ e)).1 = d :: ds' := by
          rw [takeDigits_append_of_ne_nil cs e hr2]
          simp [hds]
        have hta2 : (takeDigits (cs ++ e)).2 = c2 :: (r2 ++ e) := by
          rw [takeDigits_append_of_ne_nil cs e hr2]
          simp [hr]
        rw [hds] at h
        rw [if_neg (by simp)] at h
        rw [hr] at h
        rw [hta1, hta2]
        rw [if_neg (by simp)]
        by_cases h2 : c2 = '}'
        · rw [if_pos (by simp [h2])] at h
          simp at h
        · rw [if_neg (by simp [h2])] at h
          rw [if_neg (by simp [h2])]
          by_cases h3 : c2 = '+'
          case neg =>
            rw [if_neg (by rcases r2 with _ | ⟨c3, r3⟩ <;> simp [h3])] at h
            rw [if_neg (by simp [h3])]
          subst h3
          rcases r2 with _ | ⟨c3, r3⟩
          · -- the whole of `cs` was `digits+`, so it contains no newline
            exfalso
            have hs := takeDigits_eq_append cs
            rw [hr, hds] at hs
            rw [← hs] at hmemcs
            rcases List.mem_cons.mp hmemcs with h1 | h1
            · have := takeDigits_digits cs d (by rw [hds]; simp)
              rw [← h1] at this
              simp at this
            · rcases List.mem_append.mp h1 with h2 | h2
              · have := takeDigits_digits cs '\n' (by rw [hds]; simp [h2])
                simp at this
              · exact absurd h2 (by decide)
          · by_cases h4 : c3 = '}'
            · rw [if_pos (by simp [h4])] at h
              simp at h
            · rw [if_neg (by simp [h4])] at h
              rw [if_neg (by simp [h4])]

theorem termAt_lbrace (cs : List Char) : termAt ('{' :: cs) = none := by
  simp [termAt]

theorem matchAt_bound {s : List Char} {len : Nat} {lit : Option Nat}
    (h : matchAt s = some (len, lit)) : 1 ≤ len ∧ len ≤ s.length := by
  rcases hm : markerAt s with _ | ⟨mlen, v⟩
  · simp only [matchAt, hm] at h
    rcases ht : termAt s with _ | t
    · simp [ht] at h
    · simp [ht] at h
      have := termAt_bound ht
      omega
  · simp only [matchAt, hm] at h
    rcases ht : termAt (s.drop mlen) with _ | t
    · obtain ⟨cs, rfl⟩ := markerAt_head hm
      simp [ht, termAt_lbrace] at h
    · simp [ht] at h
      have hb1 := markerAt_bound hm
      have hb2 := termAt_bound ht
      rw [List.length_drop] at hb2
      omega

theorem matchAt_append {s e : List Char} {len : Nat} {lit : Option Nat}
    (h : matchAt s = some (len, lit)) : matchAt (s ++ e) = some (len, lit) := by
  rcases hm : markerAt s with _ | ⟨mlen, v⟩
  · simp only [matchAt, hm] at h
    rcases ht : termAt s with _ | t
    · simp [ht] at h
    · simp only [ht, Option.map_some] at h
      have hhead : markerAt (s ++ e) = none := by
        rcases s with _ | ⟨c, cs⟩
        · simp [termAt] at ht
        · have hc : c = '\n' ∨ c = '\r' := by
            by_cases h1 : c = '\n'
            · exact Or.inl h1
            · by_cases h2 : c = '\r'
              · exact Or.inr h2
              · simp [termAt, h1, h2] at ht
          simp only [List.cons_append, markerAt]
          rcases hc with rfl | rfl <;> rw [if_pos (by decide)]
      simp only [matchAt, hhead]
      rw [termAt_append ht]
      simpa using h
  · simp only [matchAt, hm] at h
    have hm' := markerAt_append (e := e) hm
    simp only [matchAt, hm']
    obtain ⟨hb1, hb2⟩ := markerAt_bound hm
    have hdrop : (s ++ e).drop mlen = s.drop mlen ++ e := List.drop_append_of_le_length hb2
    rcases ht : termAt (s.drop mlen) with _ | t
    · obtain ⟨cs, rfl⟩ := markerAt_head hm
      simp [ht, termAt_lbrace] at h
    · rw [hdrop, termAt_append ht]
      simp only [ht] at h
      exact h

theorem matchAt_mem {s : List Char} {len : Nat} {lit : Option Nat}
    (h : matchAt s = some (len, lit)) : '\n' ∈ s := by
  rcases hm : markerAt s with _ | ⟨mlen, v⟩
  · simp only [matchAt, hm] at h
    rcases ht : termAt s with _ | t
    · simp [ht] at h
    · exact termAt_mem ht
  · simp only [matchAt, hm] at h
    rcases ht : termAt (s.drop mlen) with _ | t
    · obtain ⟨cs, rfl⟩ := markerAt_head hm
      simp [ht, termAt_lbrace] at h
    · exact List.drop_subset _ _ (termAt_mem ht)

theorem matchAt_none_append {s e : List Char} (hmem : '\n' ∈ s) (h : matchAt s = none) :
    matchAt (s ++ e) = none := by
  rcases hm : markerAt s with _ | ⟨mlen, v⟩
  · have hm' : markerAt (s ++ e) = none := markerAt_none_append hmem hm
    simp only [matchAt, hm'] at h ⊢
    simp only [hm] at h
    rcases ht : termAt s with _ | t
    · rw [termAt_none_append hmem ht]
      rfl
    · simp [ht] at h
  · have hm' := markerAt_append (e := e) hm
    simp only [matchAt, hm] at h
    simp only [matchAt, hm']
    obtain ⟨hb1, hb2⟩ := markerAt_bound hm
    have hdrop : (s ++ e).drop mlen = s.drop mlen ++ e := List.drop_append_of_le_length hb2
    rcases ht : termAt (s.drop mlen) with _ | t
    · have hnl : '\n' ∈ s.drop mlen := by
        have hsplit : s.take mlen ++ s.drop mlen = s := List.take_append_drop _ _
        have htake := markerAt_take hm
        have hmem2 : '\n' ∈ s.take mlen ++ s.drop mlen := by rw [hsplit]; exact hmem
        rcases List.mem_append.mp hmem2 with h1 | h1
        · exact absurd h1 htake
        · exact h1
      rw [hdrop, termAt_none_append hnl ht]
      have ht2 : termAt s = none := by
        rcases ht2 : termAt s with _ | t2
        · rfl
        · simp [ht, ht2] at h
      rw [termAt_none_append hmem ht2]
      rfl
    · simp [ht] at h

theorem findMatch_mem : ∀ (s : List Char) (i len : Nat) (lit : Option Nat),
    findMatch s = some (i, len, lit) → '\n' ∈ s := by
  intro s
  induction s with
  | nil => intro i len lit h; simp [findMatch] at h
  | cons c cs ih =>
    intro i len lit h
    simp only [findMatch] at h
    rcases hma : matchAt (c :: cs) with _ | ⟨len', lit'⟩
    · rw [hma] at h
      rcases hf : findMatch cs with _ | ⟨i', len', lit'⟩
      · rw [hf] at h; simp at h
      · exact List.mem_cons_of_mem _ (ih i' len' lit' hf)
    · exact matchAt_mem hma

theorem findMatch_bound : ∀ (s : List Char) (i len : Nat) (lit : Option Nat),
    findMatch s = some (i, len, lit) → 1 ≤ len ∧ i + len ≤ s.length := by
  intro s
  induction s with
  | nil => intro i len lit h; simp [findMatch] at h
  | cons c cs ih =>
    intro i len lit h
    simp only [findMatch] at h
    rcases hma : matchAt (c :: cs) with _ | ⟨len', lit'⟩
    · rw [hma] at h
      rcases hf : findMatch cs with _ | ⟨i', len2, lit2⟩
      · rw [hf] at h; simp at h
      · rw [hf] at h
        simp only [Option.some_inj, Prod.mk.injEq] at h
        obtain ⟨hi, hlen, _⟩ := h
        obtain ⟨h1, h2⟩ := ih i' len2 lit2 hf
        subst hi
        subst hlen
        simp only [List.length_cons]
        omega
    · rw [hma] at h
      simp only [Option.some_inj, Prod.mk.injEq] at h
      obtain ⟨hi, hlen, _⟩ := h
      obtain ⟨h1, h2⟩ := matchAt_bound hma
      subst hi
      subst hlen
      refine ⟨h1, ?_⟩
      simp only [List.length_cons] at h2 ⊢
      omega

theorem findMatch_append : ∀ (s e : List Char) (i len : Nat) (lit : Option Nat),
    findMatch s = some (i, len, lit) → findMatch (s ++ e) = some (i, len, lit) := by
  intro s
  induction s with
  | nil => intro e i len lit h; simp [findMatch] at h
  | cons c cs ih =>
    intro e i len lit h
    simp only [findMatch] at h
    simp only [List.cons_append, findMatch, List.append_eq]
    rcases hma : matchAt (c :: cs) with _ | ⟨len', lit'⟩
    · rw [hma] at h
      rcases hf : findMatch cs with _ | ⟨i', len2, lit2⟩
      · rw [hf] at h; simp at h
      · rw [hf] at h
        have hnl : '\n' ∈ c :: cs := List.mem_cons_of_mem _ (findMatch_mem cs i' len2 lit2 hf)
        have hma' : matchAt ((c :: cs) ++ e) = none := matchAt_none_append hnl hma
        rw [List.cons_append] at hma'
        rw [hma']
        rw [ih e i' len2 lit2 hf]
        exact h
    · have hma' := matchAt_append (e := e) hma
      rw [List.cons_append] at hma'
      rw [hma']
      rw [hma] at h
      exact h

theorem findMatch_isSome_of_mem : ∀ s : List Char, '\n' ∈ s → (findMatch s).isSome := by
  intro s
  induction s with
  | nil => intro h; simp at h
  | cons c cs ih =>
    intro h
    simp only [findMatch]
    rcases hma : matchAt (c :: cs) with _ | ⟨len', lit'⟩
    · rcases List.mem_cons.mp h with h1 | h1
      · exfalso
        subst h1
        simp [matchAt, markerAt, termAt] at hma
      · have := ih h1
        rcases hf : findMatch cs with _ | ⟨i', len2, lit2⟩
        · rw [hf] at this; simp at this
        · simp
    · simp

theorem findMatch_eq : ∀ (k : Nat) (s : List Char) (len : Nat) (lit : Option Nat),
    (∀ j, j < k → matchAt (s.drop j) = none) → matchAt (s.drop k) = some (len, lit) →
    findMatch s = some (k, len, lit) := by
  intro k
  induction k with
  | zero =>
    intro s len lit _ hm
    rw [List.drop_zero] at hm
    rcases s with _ | ⟨c, cs⟩
    · simp [matchAt, markerAt, termAt] at hm
    · simp [findMatch, hm]
  | succ k ih =>
    intro s len lit hk hm
    rcases s with _ | ⟨c, cs⟩
    · rw [List.drop_nil] at hm
      simp [matchAt, markerAt, termAt] at hm
    · have h0 : matchAt (c :: cs) = none := by
        have := hk 0 (Nat.succ_pos k)
        rwa [List.drop_zero] at this
      have hk' : ∀ j, j < k → matchAt (cs.drop j) = none := by
        intro j hj
        have := hk (j + 1) (by omega)
        rwa [List.drop_succ_cons] at this
      have hm' : matchAt (cs.drop k) = some (len, lit) := by
        rwa [List.drop_succ_cons] at hm
      simp only [findMatch, h0]
      rw [ih cs len lit hk' hm']

/-! ### Drain lemmas -/
theorem drainF_congr : ∀ (f : Nat), ∀ (g : Nat) (st : RState),
    st.buffer.length ≤ f → st.buffer.length ≤ g → drainF f st = drainF g st := by
  intro f
  induction f with
  | zero =>
    intro g st h0 _
    rcases st with ⟨cmd, lr, buf⟩
    simp only at h0
    have hbuf : buf = [] := List.length_eq_zero.mp (Nat.le_zero.mp h0)
    subst hbuf
    cases g with
    | zero => rfl
    | succ g => simp [drainF, findMatch]
  | succ f ih =>
    intro g st h1 h2
    cases g with
    | zero =>
      rcases st with ⟨cmd, lr, buf⟩
      simp only at h2
      have hbuf : buf = [] := List.length_eq_zero.mp (Nat.le_zero.mp h2)
      subst hbuf
      simp [drainF, findMatch]
    | succ g =>
      rcases st with ⟨cmd, lr, buf⟩
      simp only at h1 h2
      simp only [drainF]
      rcases hfm : findMatch buf with _ | ⟨idx, len, lit⟩
      · rfl
      · obtain ⟨hl1, hl2⟩ := findMatch_bound buf idx len lit hfm
        by_cases hlr : lr ≠ 0
        · simp only [if_pos hlr]
          by_cases hlt : buf.length < lr
          · simp [hlt]
          · simp only [if_neg hlt]
            apply ih
            · simp only [List.length_drop]; omega
            · simp only [List.length_drop]; omega
        · simp only [if_neg hlr]
          rcases lit with _ | n
          · have := ih g ⟨[], 0, buf.drop (idx + len)⟩
              (by simp only [List.length_drop]; omega)
              (by simp only [List.length_drop]; omega)
            rw [this]
          · apply ih
            · simp only [List.length_drop]; omega
            · simp only [List.length_drop]; omega

theorem drain_no_match {cmd buf : List Char} {lr : Nat} (h : findMatch buf = none) :
    drain ⟨cmd, lr, buf⟩ = (⟨cmd, lr, buf⟩, []) := by
  unfold drain
  rcases buf with _ | ⟨c, cs⟩
  · rfl
  · simp only [List.length_cons, drainF]
    simp [h]

theorem drain_wait {cmd buf : List Char} {lr i l : Nat} {n : Option Nat}
    (hf : findMatch buf = some (i, l, n)) (hlr : lr ≠ 0) (hlen : buf.length < lr) :
    drain ⟨cmd, lr, buf⟩ = (⟨cmd, lr, buf⟩, []) := by
  unfold drain
  rcases buf with _ | ⟨c, cs⟩
  · simp [findMatch] at hf
  · simp only [List.length_cons, drainF]
    simp only [hf, if_pos hlr]
    rw [if_pos (by simpa using hlen)]

theorem drain_lit {cmd buf : List Char} {lr i l : Nat} {n : Option Nat}
    (hf : findMatch buf = some (i, l, n)) (hlr : lr ≠ 0) (hlen : lr ≤ buf.length) :
    drain ⟨cmd, lr, buf⟩ = drain ⟨cmd ++ buf.take lr, 0, buf.drop lr⟩ := by
  unfold drain
  rcases buf with _ | ⟨c, cs⟩
  · exact absurd (Nat.le_zero.mp hlen) hlr
  · simp only [List.length_cons, drainF]
    simp only [hf, if_pos hlr]
    rw [if_neg (by simp only [List.length_cons] at hlen; omega)]
    apply drainF_congr
    · simp only [List.length_drop, List.length_cons] at *; omega
    · simp only [List.length_drop, List.length_cons] at *; omega

theorem drain_marker {cmd buf : List Char} {i l n : Nat}
    (hf : findMatch buf = some (i, l, some n)) :
    drain ⟨cmd, 0, buf⟩ = drain ⟨cmd ++ buf.take (i + l), n, buf.drop (i + l)⟩ := by
  obtain ⟨hl1, hl2⟩ := findMatch_bound buf i l (some n) hf
  unfold drain
  rcases buf with _ | ⟨c, cs⟩
  · simp [findMatch] at hf
  · simp only [List.length_cons, drainF]
    simp only [hf]
    rw [if_neg (by simp)]
    apply drainF_congr
    · simp only [List.length_drop, List.length_cons] at *; omega
    · simp only [List.length_drop, List.length_cons] at *; omega

theorem drain_emit {cmd buf : List Char} {i l : Nat}
    (hf : findMatch buf = some (i, l, none)) :
    drain ⟨cmd, 0, buf⟩ = ((drain ⟨[], 0, buf.drop (i + l)⟩).1,
      (cmd ++ buf.take i) :: (drain ⟨[], 0, buf.drop (i + l)⟩).2) := by
  obtain ⟨hl1, hl2⟩ := findMatch_bound buf i l none hf
  unfold drain
  rcases buf with _ | ⟨c, cs⟩
  · simp [findMatch] at hf
  · simp only [List.length_cons, drainF]
    simp only [hf]
    rw [if_neg (by simp)]
    have hcongr := drainF_congr ((c :: cs).length - 1) ((c :: cs).drop (i + l)).length
        ⟨[], 0, (c :: cs).drop (i + l)⟩
        (by simp only [List.length_drop, List.length_cons] at *; omega)
        le_rfl
    simp only [List.length_cons, Nat.add_sub_cancel] at hcongr
    rw [hcongr]

/-- Chunk-splitting soundness at the single-split level: appending more bytes
commutes with draining. -/
theorem drain_append : ∀ (fuel : Nat) (buf : List Char), buf.length ≤ fuel →
    ∀ (cmd e : List Char) (lr : Nat),
    feedSt ⟨cmd, lr, buf⟩ e
      = ((feedSt (drain ⟨cmd, lr, buf⟩).1 e).1,
         (drain ⟨cmd, lr, buf⟩).2 ++ (feedSt (drain ⟨cmd, lr, buf⟩).1 e).2) := by
  intro fuel
  induction fuel with
  | zero =>
    intro buf h0 cmd e lr
    have hbuf : buf = [] := List.length_eq_zero.mp (Nat.le_zero.mp h0)
    subst hbuf
    have h1 : drain ⟨cmd, lr, ([] : List Char)⟩ = (⟨cmd, lr, []⟩, []) := drain_no_match rfl
    rw [h1]
    simp
  | succ fuel ih =>
    intro buf hle cmd e lr
    rcases hfm : findMatch buf with _ | ⟨i, l, lit⟩
    · rw [drain_no_match hfm]
      simp
    · obtain ⟨hl1, hl2⟩ := findMatch_bound buf i l lit hfm
      have hfm' : findMatch (buf ++ e) = some (i, l, lit) := findMatch_append buf e i l lit hfm
      by_cases hlr : lr ≠ 0
      · by_cases hlen : buf.length < lr
        · rw [drain_wait hfm hlr hlen]
          simp
        · push_neg at hlen
          have hstep := @drain_lit cmd _ _ _ _ _ hfm hlr hlen
          have hstep' : drain ⟨cmd, lr, buf ++ e⟩
              = drain ⟨cmd ++ buf.take lr, 0, buf.drop lr ++ e⟩ := by
            rw [drain_lit hfm' hlr (by simp only [List.length_append]; omega),
                List.take_append_of_le_length hlen, List.drop_append_of_le_length hlen]
          show drain ⟨cmd, lr, buf ++ e⟩ = _
          rw [hstep', hstep]
          have := ih (buf.drop lr) (by simp only [List.length_drop]; omega)
            (cmd ++ buf.take lr) e 0
          exact this
      · push_neg at hlr
        subst hlr
        rcases lit with _ | n
        · -- plain terminator: emit
          have hstep := @drain_emit cmd _ _ _ hfm
          have hstep' : drain ⟨cmd, 0, buf ++ e⟩
              = ((drain ⟨[], 0, buf.drop (i + l) ++ e⟩).1,
                 (cmd ++ buf.take i) :: (drain ⟨[], 0, buf.drop (i + l) ++ e⟩).2) := by
            rw [drain_emit hfm']
            rw [List.take_append_of_le_length (by omega),
                List.drop_append_of_le_length (by omega)]
          show drain ⟨cmd, 0, buf ++ e⟩ = _
          rw [hstep', hstep]
          have hih := ih (buf.drop (i + l)) (by simp only [List.length_drop]; omega) [] e 0
          unfold feedSt at hih ⊢
          simp only at hih
          rw [hih]
          simp
        · -- literal marker
          have hstep := @drain_marker cmd _ _ _ _ hfm
          have hstep' : drain ⟨cmd, 0, buf ++ e⟩
              = drain ⟨cmd ++ buf.take (i + l), n, buf.drop (i + l) ++ e⟩ := by
            rw [drain_marker hfm']
            rw [List.take_append_of_le_length (by omega),
                List.drop_append_of_le_length (by omega)]
          show drain ⟨cmd, 0, buf ++ e⟩ = _
          rw [hstep', hstep]
          exact ih (buf.drop (i + l)) (by simp only [List.length_drop]; omega)
            (cmd ++ buf.take (i + l)) e n

/-- Draining is idempotent: a drained state drains to itself with no output. -/
theorem drain_idem : ∀ (fuel : Nat) (buf : List Char), buf.length ≤ fuel →
    ∀ (cmd : List Char) (lr : Nat),
    drain (drain ⟨cmd, lr, buf⟩).1 = ((drain ⟨cmd, lr, buf⟩).1, []) := by
  intro fuel
  induction fuel with
  | zero =>
    intro buf h0 cmd lr
    have hbuf : buf = [] := List.length_eq_zero.mp (Nat.le_zero.mp h0)
    subst hbuf
    have h1 : drain ⟨cmd, lr, ([] : List Char)⟩ = (⟨cmd, lr, []⟩, []) := drain_no_match rfl
    rw [h1]
    exact h1
  | succ fuel ih =>
    intro buf hle cmd lr
    rcases hfm : findMatch buf with _ | ⟨i, l, lit⟩
    · rw [drain_no_match hfm]
      exact drain_no_match hfm
    · obtain ⟨hl1, hl2⟩ := findMatch_bound buf i l lit hfm
      by_cases hlr : lr ≠ 0
      · by_cases hlen : buf.length < lr
        · rw [drain_wait hfm hlr hlen]
          exact drain_wait hfm hlr hlen
        · push_neg at hlen
          rw [drain_lit hfm hlr hlen]
          exact ih (buf.drop lr) (by simp only [List.length_drop]; omega) _ 0
      · push_neg at hlr
        subst hlr
        rcases lit with _ | n
        · rw [drain_emit hfm]
          exact ih (buf.drop (i + l)) (by simp only [List.length_drop]; omega) [] 0
        · rw [drain_marker hfm]
          exact ih (buf.drop (i + l)) (by simp only [List.length_drop]; omega) _ n

/-- Feeding chunks one at a time is the same as feeding their concatenation:
the framing reader is insensitive to chunk boundaries. -/
theorem feedMany_join : ∀ (chunks : List (List Char)) (st : RState),
    drain st = (st, []) →
    feedMany st chunks = feedSt st chunks.join := by
  intro chunks
  induction chunks with
  | nil =>
    intro st hst
    simp only [feedMany, List.join_nil]
    unfold feedSt
    rcases st with ⟨cmd, lr, buf⟩
    simpa using hst.symm
  | cons c cs ih =>
    intro st hst
    rcases st with ⟨cmd, lr, buf⟩
    have hidem : drain (feedSt ⟨cmd, lr, buf⟩ c).1 = ((feedSt ⟨cmd, lr, buf⟩ c).1, []) := by
      unfold feedSt
      simp only
      rcases hst2 : drain ⟨cmd, lr, buf ++ c⟩ with ⟨st2, out2⟩
      rcases st2 with ⟨cmd2, lr2, buf2⟩
      have := drain_idem (buf ++ c).length (buf ++ c) le_rfl cmd lr
      rw [hst2] at this
      exact this
    have hjoin : ((c :: cs).join : List Char) = c ++ cs.join := by simp
    rw [hjoin]
    simp only [feedMany]
    rw [ih (feedSt ⟨cmd, lr, buf⟩ c).1 hidem]
    have happ := drain_append (buf ++ c).length (buf ++ c) le_rfl cmd (cs.join) lr
    -- `feedSt st (c ++ cs.join)` regroups as feeding `buf ++ c` then the rest
    have hregroup : feedSt ⟨cmd, lr, buf⟩ (c ++ cs.join)
        = feedSt ⟨cmd, lr, buf ++ c⟩ cs.join := by
      unfold feedSt
      simp only [List.append_assoc]
    rw [hregroup]
    have hfc : feedSt ⟨cmd, lr, buf⟩ c = drain ⟨cmd, lr, buf ++ c⟩ := by
      unfold feedSt
      simp only
    rw [hfc]
    rw [show (⟨cmd, lr, buf ++ c⟩ : RState) = { (⟨cmd, lr, buf⟩ : RState) with
          buffer := (⟨cmd, lr, buf⟩ : RState).buffer ++ c } from rfl] at happ ⊢
    rw [happ]

theorem termAt_eol (crlf : Bool) (tail : List Char) :
    termAt (eolBytes crlf ++ tail) = some (eolBytes crlf).length := by
  cases crlf <;> simp [eolBytes, termAt]

theorem eol_mem (crlf : Bool) : '\n' ∈ eolBytes crlf := by
  cases crlf <;> simp [eolBytes]

/-- A marker line at the head of the buffer matches the regex as a literal
marker, consuming exactly the marker and its terminator. -/
theorem matchAt_markerBytes (p : LitPart) (hne : p.marker ≠ [])
    (hdig : ∀ c ∈ p.marker, c.isDigit = true) (tail : List Char) :
    matchAt (markerBytes p ++ tail)
      = some ((markerBytes p).length, some (digitsVal p.marker)) := by
  cases hp : p.plus
  · have h1 : markerBytes p ++ tail
        = '{' :: p.marker ++ '}' :: (eolBytes p.crlf ++ tail) := by
      simp [markerBytes, hp]
    have hmk := @markerAt_mk _ (eolBytes p.crlf ++ tail) hne hdig
    rw [h1]
    simp only [matchAt, hmk]
    have hdrop : ('{' :: p.marker ++ '}' :: (eolBytes p.crlf ++ tail)).drop
        (1 + p.marker.length + 1) = eolBytes p.crlf ++ tail := by
      have h2 : '{' :: p.marker ++ '}' :: (eolBytes p.crlf ++ tail)
          = ('{' :: p.marker ++ ['}']) ++ (eolBytes p.crlf ++ tail) := by simp
      have h3 : ('{' :: p.marker ++ ['}']).length = 1 + p.marker.length + 1 := by
        simp
        omega
      rw [h2, ← h3, List.drop_left]
    rw [hdrop, termAt_eol]
    have hlen : (markerBytes p).length
        = 1 + p.marker.length + 1 + (eolBytes p.crlf).length := by
      simp [markerBytes, hp]
      omega
    rw [hlen]
  · have h1 : markerBytes p ++ tail
        = '{' :: p.marker ++ '+' :: '}' :: (eolBytes p.crlf ++ tail) := by
      simp [markerBytes, hp]
    have hmk := @markerAt_mk_plus _ (eolBytes p.crlf ++ tail) hne hdig
    rw [h1]
    simp only [matchAt, hmk]
    have hdrop : ('{' :: p.marker ++ '+' :: '}' :: (eolBytes p.crlf ++ tail)).drop
        (1 + p.marker.length + 2) = eolBytes p.crlf ++ tail := by
      have h2 : '{' :: p.marker ++ '+' :: '}' :: (eolBytes p.crlf ++ tail)
          = ('{' :: p.marker ++ ['+', '}']) ++ (eolBytes p.crlf ++ tail) := by simp
      have h3 : ('{' :: p.marker ++ ['+', '}']).length = 1 + p.marker.length + 2 := by
        simp
        omega
      rw [h2, ← h3, List.drop_left]
    rw [hdrop, termAt_eol]
    have hlen : (markerBytes p).length
        = 1 + p.marker.length + 2 + (eolBytes p.crlf).length := by
      simp [markerBytes, hp]
      omega
    rw [hlen]

theorem markerBytes_mem (p : LitPart) : '\n' ∈ markerBytes p := by
  unfold markerBytes
  cases p.plus <;> cases hc : p.crlf <;> simp [eolBytes]

theorem partOk_spec {p : LitPart} (h : partOk p = true) :
    p.marker ≠ [] ∧ (∀ c ∈ p.marker, c.isDigit = true) ∧
    digitsVal p.marker = p.lit.length ∧
    (∀ j, j < p.text.length → matchAt (p.text.drop j ++ markerBytes p) = none) := by
  unfold partOk at h
  simp only [Bool.and_eq_true] at h
  obtain ⟨⟨⟨h1, h2⟩, h3⟩, h4⟩ := h
  refine ⟨by simpa using h1, ?_, by simpa using h3, ?_⟩
  · intro c hc
    rw [List.all_eq_true] at h2
    exact h2 c hc
  · intro j hj
    rw [List.all_eq_true] at h4
    have := h4 j (List.mem_range.mpr hj)
    simpa [Option.isNone_iff_eq_none] using this

theorem unitOk_spec {u : RUnit} (h : unitOk u = true) :
    (∀ p ∈ u.parts, partOk p = true) ∧
    (∀ j, j < u.final.length → matchAt (u.final.drop j ++ eolBytes u.crlf) = none) := by
  unfold unitOk at h
  simp only [Bool.and_eq_true] at h
  obtain ⟨h1, h2⟩ := h
  constructor
  · intro p hp
    rw [List.all_eq_true] at h1
    exact h1 p hp
  · intro j hj
    rw [List.all_eq_true] at h2
    have := h2 j (List.mem_range.mpr hj)
    simpa [Option.isNone_iff_eq_none] using this

/-- Leftmost-match location when a clean prefix is followed by a match. -/
theorem findMatch_prefix {pre post : List Char} {len : Nat} {lit : Option Nat}
    (hpre : ∀ j, j < pre.length → matchAt (pre.drop j ++ post) = none)
    (hm : matchAt post = some (len, lit)) :
    findMatch (pre ++ post) = some (pre.length, len, lit) := by
  apply findMatch_eq pre.length (pre ++ post) len lit
  · intro j hj
    rw [List.drop_append_of_le_length (le_of_lt hj)]
    exact hpre j hj
  · rw [List.drop_left]
    exact hm

/-- Processing one complete well-formed unit at the head of the buffer:
the unit's bytes are consumed, its content is emitted, and processing
continues on the remainder. -/
theorem drain_unit : ∀ (parts : List LitPart) (final : List Char) (crlf : Bool)
    (rest acc : List Char),
    (∀ p ∈ parts, partOk p = true) →
    (∀ j, j < final.length → matchAt (final.drop j ++ eolBytes crlf) = none) →
    drain ⟨acc, 0, (parts.map partBytes).join ++ (final ++ (eolBytes crlf ++ rest))⟩
      = ((drain ⟨[], 0, rest⟩).1,
         (acc ++ ((parts.map partBytes).join ++ final)) :: (drain ⟨[], 0, rest⟩).2) := by
  intro parts
  induction parts with
  | nil =>
    intro final crlf rest acc _ hfin
    simp only [List.map_nil, List.join_nil, List.nil_append]
    have hm : matchAt (eolBytes crlf ++ rest) = some ((eolBytes crlf).length, none) := by
      cases crlf <;> simp [eolBytes, matchAt, markerAt, termAt]
    have hpre : ∀ j, j < final.length → matchAt (final.drop j ++ (eolBytes crlf ++ rest)) = none := by
      intro j hj
      have h0 := hfin j hj
      have hmem : '\n' ∈ final.drop j ++ eolBytes crlf :=
        List.mem_append.mpr (Or.inr (eol_mem crlf))
      have := matchAt_none_append (e := rest) hmem h0
      rwa [List.append_assoc] at this
    have hfm := findMatch_prefix hpre hm
    rw [@drain_emit acc _ _ _ hfm]
    have htake : (final ++ (eolBytes crlf ++ rest)).take final.length = final :=
      List.take_left _ _
    have hdrop : (final ++ (eolBytes crlf ++ rest)).drop
        (final.length + (eolBytes crlf).length) = rest := by
      rw [← List.append_assoc, ← List.length_append, List.drop_left]
    rw [htake, hdrop]
  | cons p ps ih =>
    intro final crlf rest acc hparts hfin
    obtain ⟨hne, hdig, hval, htext⟩ := partOk_spec (hparts p (by simp))
    have hbuf : ((p :: ps).map partBytes).join ++ (final ++ (eolBytes crlf ++ rest))
        = p.text ++ (markerBytes p ++ (p.lit ++
            ((ps.map partBytes).join ++ (final ++ (eolBytes crlf ++ rest))))) := by
      simp [partBytes]
    rw [hbuf]
    have hmm := matchAt_markerBytes p hne hdig
      (p.lit ++ ((ps.map partBytes).join ++ (final ++ (eolBytes crlf ++ rest))))
    have hpre : ∀ j, j < p.text.length →
        matchAt (p.text.drop j ++ (markerBytes p ++ (p.lit ++
          ((ps.map partBytes).join ++ (final ++ (eolBytes crlf ++ rest)))))) = none := by
      intro j hj
      have h0 := htext j hj
      have hmem : '\n' ∈ p.text.drop j ++ markerBytes p :=
        List.mem_append.mpr (Or.inr (markerBytes_mem p))
      have := matchAt_none_append
        (e := p.lit ++ ((ps.map partBytes).join ++ (final ++ (eolBytes crlf ++ rest))))
        hmem h0
      rwa [List.append_assoc] at this
    have hfm := findMatch_prefix hpre hmm
    rw [@drain_marker acc _ _ _ _ hfm]
    have htake : (p.text ++ (markerBytes p ++ (p.lit ++
          ((ps.map partBytes).join ++ (final ++ (eolBytes crlf ++ rest)))))).take
        (p.text.length + (markerBytes p).length)
        = p.text ++ markerBytes p := by
      rw [← List.append_assoc, ← List.length_append, List.take_left]
    have hdrop : (p.text ++ (markerBytes p ++ (p.lit ++
          ((ps.map partBytes).join ++ (final ++ (eolBytes crlf ++ rest)))))).drop
        (p.text.length + (markerBytes p).length)
        = p.lit ++ ((ps.map partBytes).join ++ (final ++ (eolBytes crlf ++ rest))) := by
      rw [← List.append_assoc, ← List.length_append, List.drop_left]
    rw [htake, hdrop]
    by_cases hlit : p.lit = []
    · -- a `{0}` literal: nothing to consume, continue directly
      rw [hlit] at hval ⊢
      simp only [List.length_nil] at hval
      rw [hval]
      simp only [List.nil_append]
      have hihr := ih final crlf rest (acc ++ (p.text ++ markerBytes p))
        (fun q hq => hparts q (by simp [hq])) hfin
      rw [hihr]
      simp [partBytes, hlit]
    · -- a non-empty literal: consume exactly `lit.length` opaque bytes
      have hlr : digitsVal p.marker ≠ 0 := by
        rw [hval]
        have := List.length_pos.mpr hlit
        omega
      have hmemR : '\n' ∈ p.lit ++ ((ps.map partBytes).join ++ (final ++ (eolBytes crlf ++ rest))) := by
        refine List.mem_append.mpr (Or.inr (List.mem_append.mpr (Or.inr ?_)))
        exact List.mem_append.mpr (Or.inr (List.mem_append.mpr (Or.inl (eol_mem crlf))))
      have hsome := findMatch_isSome_of_mem _ hmemR
      rcases hf2 : findMatch (p.lit ++ ((ps.map partBytes).join ++
          (final ++ (eolBytes crlf ++ rest)))) with _ | ⟨i2, l2, lit2⟩
      · rw [hf2] at hsome; simp at hsome
      · have hlen2 : digitsVal p.marker
            ≤ (p.lit ++ ((ps.map partBytes).join ++ (final ++ (eolBytes crlf ++ rest)))).length := by
          rw [hval, List.length_append]
          omega
        rw [drain_lit hf2 hlr hlen2]
        have htake2 : (p.lit ++ ((ps.map partBytes).join ++
            (final ++ (eolBytes crlf ++ rest)))).take (digitsVal p.marker) = p.lit := by
          rw [hval]
          exact List.take_left _ _
        have hdrop2 : (p.lit ++ ((ps.map partBytes).join ++
            (final ++ (eolBytes crlf ++ rest)))).drop (digitsVal p.marker)
            = (ps.map partBytes).join ++ (final ++ (eolBytes crlf ++ rest)) := by
          rw [hval]
          exact List.drop_left _ _
        rw [htake2, hdrop2]
        have hihr := ih final crlf rest (acc ++ (p.text ++ markerBytes p) ++ p.lit)
          (fun q hq => hparts q (by simp [hq])) hfin
        rw [hihr]
        simp [partBytes]

/-- Feeding a whole well-formed stream at once emits exactly the units'
contents and leaves the reader in the initial (empty) state. -/
theorem drain_stream : ∀ (us : List RUnit), (∀ u ∈ us, unitOk u = true) →
    drain ⟨[], 0, streamBytes us⟩ = (⟨[], 0, []⟩, us.map unitContent) := by
  intro us
  induction us with
  | nil =>
    intro _
    simp only [streamBytes, List.map_nil, List.join_nil]
    exact drain_no_match rfl
  | cons u us ih =>
    intro hwf
    obtain ⟨hp, hf⟩ := unitOk_spec (hwf u (by simp))
    have hbuf : streamBytes (u :: us)
        = (u.parts.map partBytes).join ++ (u.final ++ (eolBytes u.crlf ++ streamBytes us)) := by
      simp [streamBytes, unitBytes, unitContent]
    rw [hbuf]
    rw [drain_unit u.parts u.final u.crlf (streamBytes us) [] hp hf]
    rw [ih (fun v hv => hwf v (by simp [hv]))]
    simp [unitContent]

/-! ### Tag arithmetic -/
theorem strData_append (a b : String) : (a ++ b).data = a.data ++ b.data := by
  cases a; cases b; rfl

theorem digitChar_toNat {n : Nat} (h : n < 10) : (digitChar n).toNat = 48 + n := by
  interval_cases n <;> rfl

theorem digitChar_isDigit {n : Nat} (h : n < 10) : (digitChar n).isDigit = true := by
  interval_cases n <;> rfl

theorem digitsVal_snoc (ds : List Char) (c : Char) :
    digitsVal (ds ++ [c]) = 10 * digitsVal ds + (c.toNat - 48) := by
  unfold digitsVal
  rw [List.foldl_append]
  simp
  omega

theorem toDecAux_spec : ∀ (f n : Nat), n < f →
    digitsVal (toDecAux f n) = n ∧ (∀ c ∈ toDecAux f n, c.isDigit = true) ∧
    toDecAux f n ≠ [] := by
  intro f
  induction f with
  | zero => intro n h; omega
  | succ f ih =>
    intro n h
    by_cases h10 : n < 10
    · simp only [toDecAux, if_pos h10]
      refine ⟨?_, ?_, by simp⟩
      · unfold digitsVal
        simp [digitChar_toNat h10]
      · intro c hc
        simp at hc
        subst hc
        exact digitChar_isDigit h10
    · simp only [toDecAux, if_neg h10]
      have hdiv : n / 10 < f := by
        have h1 : n / 10 < n := Nat.div_lt_self (by omega) (by omega)
        omega
      obtain ⟨hv, hd, _⟩ := ih (n / 10) hdiv
      refine ⟨?_, ?_, by simp⟩
      · rw [digitsVal_snoc, hv, digitChar_toNat (Nat.mod_lt _ (by omega))]
        omega
      · intro c hc
        rcases List.mem_append.mp hc with h1 | h1
        · exact hd c h1
        · simp at h1
          subst h1
          exact digitChar_isDigit (Nat.mod_lt _ (by omega))

theorem toDecimal_val (n : Nat) : digitsVal (toDecimal n) = n :=
  (toDecAux_spec (n + 1) n (by omega)).1

theorem toDecimal_digits (n : Nat) : ∀ c ∈ toDecimal n, c.isDigit = true :=
  (toDecAux_spec (n + 1) n (by omega)).2.1

theorem toDecimal_ne_nil (n : Nat) : toDecimal n ≠ [] :=
  (toDecAux_spec (n + 1) n (by omega)).2.2

theorem parseBase_w (n : Nat) : parseBase ("W" ++ natStr n) = n := by
  unfold parseBase
  rw [strData_append]
  have h1 : ("W" : String).data = ['W'] := rfl
  have h2 : (natStr n).data = toDecimal n := rfl
  rw [h1, h2]
  simp only [List.cons_append, List.nil_append]
  have htd : takeDigits (toDecimal n ++ []) = (toDecimal n, []) :=
    takeDigits_of_append _ _ (toDecimal_digits n) (Or.inl rfl)
  rw [List.append_nil] at htd
  rw [htd]
  exact toDecimal_val n

theorem parseBase_wp (n : Nat) : parseBase ("W" ++ natStr n ++ ".p") = n := by
  unfold parseBase
  rw [strData_append, strData_append]
  have h1 : ("W" : String).data = ['W'] := rfl
  have h2 : (natStr n).data = toDecimal n := rfl
  have h3 : (".p" : String).data = ['.', 'p'] := rfl
  rw [h1, h2, h3]
  simp only [List.cons_append, List.nil_append]
  have htd : takeDigits (toDecimal n ++ ['.', 'p']) = (toDecimal n, ['.', 'p']) :=
    takeDigits_of_append _ _ (toDecimal_digits n) (Or.inr ⟨'.', ['p'], rfl, by decide⟩)
  rw [htd]
  exact toDecimal_val n

/-! ### State-preservation of the tag counter -/
theorem sendRequest_tagCounter (st : CState) :
    (sendRequest st).1.tagCounter = st.tagCounter := by
  unfold sendRequest
  rcases hq : st.clientQueue with _ | ⟨hd, rest⟩
  · rfl
  · simp only
    split <;> rfl

theorem sendRequest_empty {st : CState} (h : st.clientQueue = []) :
    sendRequest st = (st, [Event.enterIdle]) := by
  unfold sendRequest
  rw [h]

theorem handleResponse_tagCounter (st : CState) (r : Resp) :
    (handleResponse st r).1.tagCounter = st.tagCounter := by
  unfold handleResponse
  rcases hc : st.currentCommand with _ | c
  · by_cases h : (r.tag = "*" ∧ upperTrim r.command ∈ st.globalAcceptUntagged)
    · simp only [if_pos h]
      rw [sendRequest_tagCounter]
    · simp only [if_neg h]
  · by_cases h1 : (c.payload.isSome ∧ r.tag = "*" ∧
        payloadHasKey (c.payload.getD []) (upperTrim r.command))
    · simp only [if_pos h1]
    · simp only [if_neg h1]
      by_cases h2 : (r.tag = "*" ∧ upperTrim r.command ∈ st.globalAcceptUntagged)
      · simp only [if_pos h2]
        rw [sendRequest_tagCounter]
      · simp only [if_neg h2]
        by_cases h3 : r.tag = c.tag
        · simp only [if_pos h3]
          rw [sendRequest_tagCounter]
        · simp only [if_neg h3]

theorem enqueueCommand_tagCounter (st : CState) (c a : List String) (o : EnqOpts) :
    (enqueueCommand st c a o).1.tagCounter = st.tagCounter + 1 := by
  unfold enqueueCommand
  simp only
  repeat' split
  all_goals simp [sendRequest_tagCounter]

theorem enqueueCommand_tag (st : CState) (c a : List String) (o : EnqOpts) :
    (enqueueCommand st c a o).2.2 = "W" ++ natStr (st.tagCounter + 1) ∨
    (enqueueCommand st c a o).2.2 = "W" ++ natStr (st.tagCounter + 1) ++ ".p" := by
  unfold enqueueCommand
  simp only
  repeat' split
  all_goals first | (left; rfl) | (right; rfl)

theorem enqueueCommand_parseBase (st : CState) (c a : List String) (o : EnqOpts) :
    parseBase (enqueueCommand st c a o).2.2 = st.tagCounter + 1 := by
  rcases enqueueCommand_tag st c a o with h | h <;> rw [h]
  · exact parseBase_w _
  · exact parseBase_wp _

/-! ### Tag uniqueness over a run -/
theorem runOps_base_gt : ∀ (ops : List COp) (st : CState),
    ∀ t ∈ (runOps st ops).2, st.tagCounter < parseBase t := by
  intro ops
  induction ops with
  | nil => intro st t ht; simp [runOps] at ht
  | cons op rest ih =>
    intro st t ht
    cases op with
    | enq c a o =>
      simp only [runOps] at ht
      rcases List.mem_cons.mp ht with h1 | h1
      · subst h1
        rw [enqueueCommand_parseBase]
        omega
      · have := ih (enqueueCommand st c a o).1 t h1
        rw [enqueueCommand_tagCounter] at this
        omega
    | resp r =>
      simp only [runOps] at ht
      have := ih (handleResponse st r).1 t ht
      rw [handleResponse_tagCounter] at this
      exact this

theorem runOps_pairwise : ∀ (ops : List COp) (st : CState),
    ((runOps st ops).2).Pairwise (fun a b => parseBase a < parseBase b) := by
  intro ops
  induction ops with
  | nil => intro st; simp [runOps]
  | cons op rest ih =>
    intro st
    cases op with
    | enq c a o =>
      simp only [runOps]
      refine List.Pairwise.cons ?_ (ih (enqueueCommand st c a o).1)
      intro t ht
      have := runOps_base_gt rest (enqueueCommand st c a o).1 t ht
      rw [enqueueCommand_tagCounter] at this
      rw [enqueueCommand_parseBase]
      omega
    | resp r =>
      simp only [runOps]
      exact ih (handleResponse st r).1

/-- Dispatch of a precheck-free head: `canSend` is cleared, the head becomes
current with its remaining compiled chunks, and the first chunk is sent with
EOL iff it is the only one. -/
theorem sendRequest_dispatch {st : CState} {hd : Cmd} {rest : List Cmd}
    (hq : st.clientQueue = hd :: rest) (hpre : hd.precheck = false) :
    sendRequest st = (dispatchState st hd rest,
      [Event.sent ((shiftChunk hd.compiled).1 ++
        (if (shiftChunk hd.compiled).2.isEmpty then EOL else ""))]) := by
  simp [sendRequest, hq, hpre, dispatchState]

/-- Tagged completion branch of `_handleResponse`: the payload object is
attached iff it exists and has at least one bucket, the callback fires, and
`canSend := true; _sendRequest()` follows — with `currentCommand` left
untouched by the branch itself. -/
theorem handleResponse_tagged {st : CState} {c : Cmd} {r : Resp}
    (hcur : st.currentCommand = some c) (htag : r.tag = c.tag) (hstar : r.tag ≠ "*") :
    handleResponse st r
      = ((sendRequest { st with canSend := true }).1,
         Event.callback c.tag r
             (if c.payload.isSome ∧ (c.payload.getD []).length ≠ 0 then c.payload else none)
           :: (sendRequest { st with canSend := true }).2) := by
  simp only [handleResponse, hcur]
  rw [if_neg (fun h => hstar h.2.1)]
  rw [if_neg (fun h => hstar h.1)]
  rw [if_pos htag]

/-- Unclaimed-untagged branch of `_handleResponse`: the global handler
fires, then `canSend := true; _sendRequest()` — again without clearing
`currentCommand`. -/
theorem handleResponse_global {st : CState} {c : Cmd} {r : Resp}
    (hcur : st.currentCommand = some c) (htag : r.tag = "*")
    (hglob : upperTrim r.command ∈ st.globalAcceptUntagged)
    (hnot : ¬(c.payload.isSome = true ∧
              payloadHasKey (c.payload.getD []) (upperTrim r.command) = true)) :
    handleResponse st r
      = ((sendRequest { st with canSend := true }).1,
         Event.globalHandler (upperTrim r.command) r
           :: (sendRequest { st with canSend := true }).2) := by
  simp only [handleResponse, hcur]
  rw [if_neg (fun h => hnot ⟨h.1, h.2.2⟩)]
  rw [if_pos ⟨htag, hglob⟩]

/-! ## Claim theorems -/
/-- C1 (counterexample): the claim "canSend is true only when currentCommand
is null" is false on the code: after the router delivers an untagged
response that the current command did not claim to a global handler (with an
empty queue), `canSend` is true while `currentCommand` is still non-null. -/
theorem c1_counterexample :
    (handleResponse stGlobalx respExists).1.canSend = true ∧
    (handleResponse stGlobalx respExists).1.currentCommand ≠ none := by
  constructor
  · decide
  · decide

/-- C1 (amended): immediately after `_sendRequest` dispatches a precheck-free
head, `canSend` is false and a command is current; but the invariant fails
elsewhere: when the router delivers an unclaimed untagged response to a
global handler while a command is current and the queue is empty, it sets
`canSend := true` without clearing `currentCommand`, so `canSend` is true
while `currentCommand` is non-null. -/
theorem c1_amended :
    (∀ (st : CState) (hd : Cmd) (rest : List Cmd),
        st.clientQueue = hd :: rest → hd.precheck = false →
        (sendRequest st).1.canSend = false ∧
        (sendRequest st).1.currentCommand.isSome = true) ∧
    (∀ (st : CState) (c : Cmd) (r : Resp),
        st.currentCommand = some c → st.clientQueue = [] →
        r.tag = "*" → upperTrim r.command ∈ st.globalAcceptUntagged →
        ¬(c.payload.isSome = true ∧
          payloadHasKey (c.payload.getD []) (upperTrim r.command) = true) →
        (handleResponse st r).1.canSend = true ∧
        (handleResponse st r).1.currentCommand = some c) := by
  constructor
  · intro st hd rest hq hpre
    rw [sendRequest_dispatch hq hpre]
    exact ⟨rfl, rfl⟩
  · intro st c r hcur hq htag hglob hnot
    rw [handleResponse_global hcur htag hglob hnot]
    rw [@sendRequest_empty { st with canSend := true } (by simpa using hq)]
    exact ⟨rfl, by simpa using hcur⟩

/-- C1 (witness): the amended claim at concrete states. -/
theorem c1_witness :
    ((sendRequest stDispatch).1.canSend = false ∧
     (sendRequest stDispatch).1.currentCommand.isSome = true) ∧
    ((handleResponse stGlobalx respExists).1.canSend = true ∧
     (handleResponse stGlobalx respExists).1.currentCommand = some cmdW1x) :=
  ⟨c1_amended.1 stDispatch cmdW1x [] rfl rfl,
   c1_amended.2 stGlobalx cmdW1x respExists rfl rfl rfl (by decide) (by decide)⟩

/-- C2 (counterexample): routing the tagged completion `respW5x` of `cmdW5x`
(whose only payload bucket is empty) leaves `currentCommand` non-null — the
code never clears it — and attaches the payload object even though every
bucket is empty; both contradict the claim. -/
theorem c2_counterexample :
    (handleResponse stTaggedx respW5x).1.currentCommand ≠ none ∧
    (handleResponse stTaggedx respW5x).2
      = [Event.callback "W5" respW5x (some [("CAPABILITY", [])]), Event.enterIdle] := by
  constructor
  · decide
  · decide

/-- C2 (amended): on a tagged completion the router attaches the payload
object iff it exists and has at least one bucket (even if every bucket is
empty), invokes the command's callback with the response, sets
`canSend := true` and tries to send the next command — but it does not clear
`currentCommand`: with an empty queue the completed command stays current
and `canSend` stays true. -/
theorem c2_amended :
    ∀ (st : CState) (c : Cmd) (r : Resp),
      st.currentCommand = some c → r.tag = c.tag → r.tag ≠ "*" →
      (handleResponse st r
        = ((sendRequest { st with canSend := true }).1,
           Event.callback c.tag r
               (if c.payload.isSome ∧ (c.payload.getD []).length ≠ 0 then c.payload else none)
             :: (sendRequest { st with canSend := true }).2)) ∧
      (st.clientQueue = [] →
        (handleResponse st r).1.currentCommand = some c ∧
        (handleResponse st r).1.canSend = true) := by
  intro st c r hcur htag hstar
  refine ⟨handleResponse_tagged hcur htag hstar, fun hq => ?_⟩
  rw [handleResponse_tagged hcur htag hstar]
  rw [@sendRequest_empty { st with canSend := true } (by simpa using hq)]
  exact ⟨by simpa using hcur, rfl⟩

/-- C2 (witness): the amended claim at the concrete completion. -/
theorem c2_witness :
    (handleResponse stTaggedx respW5x
      = ((sendRequest { stTaggedx with canSend := true }).1,
         Event.callback cmdW5x.tag respW5x
             (if cmdW5x.payload.isSome ∧ (cmdW5x.payload.getD []).length ≠ 0
              then cmdW5x.payload else none)
           :: (sendRequest { stTaggedx with canSend := true }).2)) ∧
    ((handleResponse stTaggedx respW5x).1.currentCommand = some cmdW5x ∧
     (handleResponse stTaggedx respW5x).1.canSend = true) := by
  have h := c2_amended stTaggedx cmdW5x respW5x rfl rfl (by decide)
  exact ⟨h.1, h.2 rfl⟩

/-- C3: for every byte stream that forms a sequence of complete well-formed
IMAP response units and every chunking of it, the framing reader emits
exactly the units' contents (marker lines and literal bytes preserved,
final terminators consumed) and returns to the empty reader state. -/
theorem c3_theorem (us : List RUnit) (cs : List (List Char))
    (hwf : ∀ u ∈ us, unitOk u = true) (hchunks : cs.join = streamBytes us) :
    feedMany initR cs = (initR, us.map unitContent) := by
  have hinit : drain initR = (initR, []) := drain_no_match rfl
  rw [feedMany_join cs initR hinit, hchunks]
  unfold feedSt initR
  simp only [List.nil_append]
  exact drain_stream us hwf

/-- C3 (witness): a two-unit stream (one with a `{5}` literal) split at a
marker boundary, a CRLF boundary, a literal boundary and a line boundary. -/
theorem c3_witness :
    feedMany initR csx = (initR, [u1x, u2x].map unitContent) :=
  c3_theorem [u1x, u2x] csx (by decide) (by decide)

/-- C4 (counterexample): priority insertion before the still-queued anchor
`W1` gives the inserted record tag `W2.p`, but the anchor's tag stays `W1`;
the claim that the anchor's tag becomes `W1.p` is false. -/
theorem c4_counterexample :
    (enqueueCommand stAnchor ["B"] [] { ctx := some "W1" }).1.clientQueue.map Cmd.tag
      = ["W2.p", "W1"] ∧ ("W1" : String) ≠ "W1.p" := by
  constructor
  · decide
  · decide

/-- C4 (amended): when `options.ctx` names a command still in the queue, the
new record is inserted immediately before it, and the `.p` suffix is applied
to the two tag fields of the new record — its own tag and its request's tag;
the anchor's tag is not modified (the untouched original queue records
surround the insertion). -/
theorem c4_amended :
    ∀ (st : CState) (compiled accept : List String) (o : EnqOpts) (t : String) (i : Nat),
      o.ctx = some t →
      st.clientQueue.findIdx? (fun cq => cq.tag = t) = some i →
      st.canSend = false →
      ∃ cmd1 : Cmd,
        (enqueueCommand st compiled accept o).1.clientQueue
          = insertAt i cmd1 st.clientQueue ∧
        cmd1.tag = "W" ++ natStr (st.tagCounter + 1) ++ ".p" ∧
        cmd1.requestTag = "W" ++ natStr (st.tagCounter + 1) ++ ".p" ∧
        (enqueueCommand st compiled accept o).2.2 = cmd1.tag := by
  intro st compiled accept o t i hctx hfind hcs
  unfold enqueueCommand
  simp only [hctx, hfind, hcs]
  exact ⟨_, rfl, rfl, rfl, rfl⟩

/-- C4 (witness): the amended claim at the concrete insertion. -/
theorem c4_witness :
    ∃ cmd1 : Cmd,
      (enqueueCommand stAnchor ["B"] [] { ctx := some "W1" }).1.clientQueue
        = insertAt 0 cmd1 stAnchor.clientQueue ∧
      cmd1.tag = "W" ++ natStr (stAnchor.tagCounter + 1) ++ ".p" ∧
      cmd1.requestTag = "W" ++ natStr (stAnchor.tagCounter + 1) ++ ".p" ∧
      (enqueueCommand stAnchor ["B"] [] { ctx := some "W1" }).2.2 = cmd1.tag :=
  c4_amended stAnchor ["B"] [] { ctx := some "W1" } "W1" 0 rfl (by decide) rfl

/-- C5 (code bug): a `+` prompt with no remaining compiled chunks and the
`errorResponseExpectsEmptyLine` option unset still sends a bare CRLF —
`typeof x` is a non-empty string and hence always truthy, so the guard
cannot distinguish set from unset.  The claim (and the spec's intent) says
nothing should be sent in this state. -/
theorem c5_theorem :
    stPlusEmpty.currentCommand = some cmdNoData ∧
    cmdNoData.data = [] ∧
    cmdNoData.errorResponseExpectsEmptyLine = none ∧
    jsTypeof cmdNoData.errorResponseExpectsEmptyLine = "undefined" ∧
    handleContinuation stPlusEmpty = .ok (stPlusEmpty, [Event.sent EOL]) :=
  ⟨rfl, rfl, rfl, rfl, rfl⟩

/-- C6: when the callback of a tagged completion receives a NO/BAD response
it rejects with `humanReadable` as the message and the uppercased first
bracketed-section entry as the code — `W2 NO [ALERT] bad mailbox` rejects
with message "bad mailbox" and code ALERT — while any other tagged
completion resolves with the response. -/
theorem c6_theorem :
    (∀ r : Resp, upperTrim r.command ∉ (["NO", "BAD"] : List String) →
      commandCallback r = .resolved r) ∧
    processResponse exRespC6 = .ok procRespC6 ∧
    procRespC6.humanReadable = some "bad mailbox" ∧
    procRespC6.code = some (SecVal.str "ALERT") ∧
    commandCallback procRespC6 = .rejected "bad mailbox" (some (SecVal.str "ALERT")) := by
  refine ⟨?_, rfl, rfl, rfl, by decide⟩
  intro r hr
  unfold commandCallback
  rw [if_neg hr]

/-- C6 (witness): a non-NO/BAD completion resolves. -/
theorem c6_witness : commandCallback respOkC6 = .resolved respOkC6 :=
  c6_theorem.1 respOkC6 (by decide)

/-- C7: a chunk gets CRLF appended iff it is the final one: at dispatch the
first compiled chunk gets EOL iff it is the only chunk; each
continuation-driven send pops the next chunk and appends EOL iff it is the
last remaining; in particular for compiled chunks `[A, B]`, dispatch sends
`A` bare and the `+` prompt then sends `B ++ EOL`. -/
theorem c7_theorem :
    (∀ (st : CState) (hd : Cmd) (rest : List Cmd) (d : String) (ds : List String),
      st.clientQueue = hd :: rest → hd.precheck = false → hd.compiled = d :: ds →
      (sendRequest st).2 = [Event.sent (d ++ (if ds.isEmpty then EOL else ""))]) ∧
    (∀ (st : CState) (c : Cmd) (d : String) (ds : List String),
      st.currentCommand = some c → c.data = d :: ds →
      handleContinuation st
        = .ok (contState st c ds, [Event.sent (d ++ (if ds.isEmpty then EOL else ""))])) ∧
    (∀ (st : CState) (hd : Cmd) (rest : List Cmd) (A B : String),
      st.clientQueue = hd :: rest → hd.precheck = false → hd.compiled = [A, B] →
      (sendRequest st).2 = [Event.sent A] ∧
      (sendRequest st).1.currentCommand = some ({ hd with data := [B] }) ∧
      (handleContinuation (sendRequest st).1).map (fun p => p.2)
        = .ok [Event.sent (B ++ EOL)] ∧
      (handleContinuation (sendRequest st).1).map (fun p => p.1.currentCommand.map Cmd.data)
        = .ok (some [])) := by
  refine ⟨?_, ?_, ?_⟩
  · intro st hd rest d ds hq hpre hcomp
    rw [sendRequest_dispatch hq hpre]
    simp [hcomp, shiftChunk]
  · intro st c d ds hcur hdata
    simp only [handleContinuation, hcur, hdata, contState]
  · intro st hd rest A B hq hpre hcomp
    rw [sendRequest_dispatch hq hpre]
    refine ⟨?_, ?_, ?_, ?_⟩
    · simp [hcomp, shiftChunk, String.append_empty]
    · simp [dispatchState, hcomp, shiftChunk]
    · simp only [dispatchState, hcomp, shiftChunk, handleContinuation]
      simp [Except.map]
    · simp only [dispatchState, hcomp, shiftChunk, handleContinuation]
      simp [Except.map]

/-- C7 (witness): the `[A, B]` scenario at a concrete state. -/
theorem c7_witness :
    (sendRequest stAB).2 = [Event.sent "A1"] ∧
    (sendRequest stAB).1.currentCommand = some ({ cmdAB with data := ["B2"] }) ∧
    (handleContinuation (sendRequest stAB).1).map (fun p => p.2)
      = .ok [Event.sent ("B2" ++ EOL)] ∧
    (handleContinuation (sendRequest stAB).1).map (fun p => p.1.currentCommand.map Cmd.data)
      = .ok (some []) :=
  c7_theorem.2.2 stAB cmdAB [] "A1" "B2" rfl rfl rfl

/-- C8: a `{0}` literal marker is valid input: it contributes zero literal
bytes, nothing is emitted until the closing plain terminator arrives, and
the emitted unit preserves the `{0}` marker and its terminator. -/
theorem c8_theorem :
    (feedSt initR ("* x \x7b0\x7d\r\n".data)).2 = [] ∧
    (feedSt (feedSt initR ("* x \x7b0\x7d\r\n".data)).1 (")\r\n".data)).2
      = ["* x \x7b0\x7d\r\n)".data] ∧
    (feedSt (feedSt initR ("* x \x7b0\x7d\r\n".data)).1 (")\r\n".data)).1 = initR := by
  refine ⟨?_, ?_, ?_⟩
  · decide
  · decide
  · decide

/-- C9: over any run of the connection (enqueues, including priority
insertions, interleaved with routed responses), the tags assigned by
`enqueueCommand` are pairwise distinct, and their base counters are strictly
increasing. -/
theorem c9_theorem (ops : List COp) :
    ((runOps initC ops).2).Pairwise (fun a b => parseBase a < parseBase b) ∧
    ((runOps initC ops).2).Pairwise (fun a b => a ≠ b) := by
  refine ⟨runOps_pairwise ops initC, ?_⟩
  exact (runOps_pairwise ops initC).imp
    (fun h => by intro he; rw [he] at h; exact lt_irrefl _ h)

/-- C10: the `+` branch reads `currentCommand.data` without a null guard:
with no command in flight the access faults (a TypeError) instead of
ignoring the prompt. -/
theorem c10_theorem (st : CState) (h : st.currentCommand = none) :
    handleContinuation st = .error "TypeError: undefined has no length" := by
  unfold handleContinuation
  rw [h]

/-- C10 (witness): a fresh connection state has no current command, so a
`+` prompt faults. -/
theorem c10_witness :
    handleContinuation initC = .error "TypeError: undefined has no length" :=
  c10_theorem initC rfl

end Browserbox
